import Mathlib

/-!
A shallow embedding of `solve_inlines.go`, with the properties proved of it.

The program reads inlining records and randomized benchmark trials, builds a
0/1 design matrix from a seeded pseudo-random selection, solves a least-squares
system and reports ranked coefficients.

Modelling conventions

* `float64` values are exact rationals (`ℚ`); Go `int`, `int32`, `int64` values
  are `Int`, with the `int32(...)` conversion written out as `toInt32`.
* Slices are lists.  An in-place update `s[i] = x` is `List.set`.
* A run-time panic (index out of range) is `none`; lines printed before a panic
  are not tracked.
* The Go standard library and gonum are not part of the program.  The calls the
  program makes into them (`rand.New(rand.NewSource(seed))`, `(*Rand).Int31n`,
  `sort.Slice`) are the fields of `Extern`; what their documentation promises
  is stated as the predicates `Extern.DrawsInRange` and `Extern.SortOk`.
  The call `v.SolveVec(a, b)` is the parameter `Solver`, and the files as read
  by `readInlines` and `readBenchmarks` are the parameter `Files`.
-/

namespace SolveInlines

/-! ## External library calls -/

/-- The library calls made by the program: a seeded random source with its
`Int31n` draw, and `sort.Slice`. -/
structure Extern where
  /-- State of a `*rand.Rand`. -/
  Rng : Type
  /-- Models `rand.New(rand.NewSource(seed))`. -/
  newSource : Int → Rng
  /-- Models `rng.Int31n(n)`: the value drawn and the generator afterwards. -/
  int31n : Rng → Int → Int × Rng
  /-- Models `sort.Slice(s, less)`, returning the slice after the call. -/
  sortSlice : {α : Type} → (α → α → Bool) → List α → List α

/-- Documented range of `Int31n(100)`: a value in the half-open interval `[0,100)`. -/
def Extern.DrawsInRange (E : Extern) : Prop :=
  ∀ s : E.Rng, 0 ≤ (E.int31n s 100).1 ∧ (E.int31n s 100).1 < 100

/-- Documented behaviour of `sort.Slice`: the result is a rearrangement of the
input, and when `less` is a strict weak ordering no element is `less` than one
placed before it. -/
def Extern.SortOk (E : Extern) : Prop :=
  ∀ {α : Type} (less : α → α → Bool) (l : List α),
    (E.sortSlice less l).Perm l ∧
    ((∀ a b, less b a = false ∨ less a b = false) →
     (∀ a b c, less b a = false → less c b = false → less c a = false) →
     (E.sortSlice less l).Pairwise (fun a b => less b a = false))

/-- One step of a small linear congruential generator, used by `refExtern`. -/
def lcgNext (s : Nat) : Nat := (s * 1103515245 + 12345) % 2147483648

/-- A concrete instance of the library calls for evaluating the model: a linear
congruential generator stands in for Go's generator, and `sort.Slice` is the
stable insertion sort (which is what Go's `sort.Slice` runs on slices of at
most 12 elements). -/
def refExtern : Extern where
  Rng := Nat
  newSource := fun seed => seed.toNat
  int31n := fun s n => (((lcgNext s / 65536 : Nat) : Int) % n, lcgNext s)
  sortSlice := fun less l => l.insertionSort (fun a b => less b a = false)

/-! ## Data model -/

/-- Go's `inlineRecord`. -/
structure inlineRecord where
  callerPackage : String
  callerFunction : String
  callerLine : Int
  callerColumn : Int
  inlinePackage : String
  inlineFunction : String
  inlineSize : Int
  line : List String
deriving DecidableEq, Repr

/-- Go's `benchmarkTrial`. -/
structure benchmarkTrial where
  seed : Int
  threshold : Int
  time : ℚ
  noise : Int
deriving DecidableEq, Repr

/-- The conversion `int32(x)` of a Go `int`: two's-complement wrap-around. -/
def toInt32 (x : Int) : Int := (x + 2147483648) % 4294967296 - 2147483648

/-- The variadic `math.Min` of gxui, at two arguments. -/
def Min (a b : Int) : Int := if b < a then b else a

/-! ## fillRow -/

/-- The loop of `fillRow`: `k` iterations remain, `i` is the loop variable. -/
def fillLoop (E : Extern) (threshold : Int) : Nat → Nat → E.Rng → List ℚ → List ℚ
  | 0, _, _, row => row
  | k + 1, i, rng, row =>
    let d := E.int31n rng 100
    fillLoop E threshold k (i + 1) d.2 (row.set i (if d.1 < threshold then 1 else 0))

/-- Go's `fillRow`, returning the row after the call; `none` is the panic of
`row[len(row)-1]` on an empty row. -/
def fillRow (E : Extern) (seed : Int) (threshold : Int) (row : List ℚ) (avg : ℚ) :
    Option (List ℚ) :=
  if row.length = 0 then none
  else
    let rng := E.newSource seed
    let row := row.set (row.length - 1) avg
    some (fillLoop E threshold (row.length - 1) 0 rng row)

/-- The site selector of the specification (section 4.1): the 0/1 indicators of
`n` successive draws below `threshold`, starting from generator state `rng`. -/
def selectFrom (E : Extern) (threshold : Int) : Nat → E.Rng → List ℚ
  | 0, _ => []
  | k + 1, rng =>
    (if (E.int31n rng 100).1 < threshold then 1 else 0) ::
      selectFrom E threshold k (E.int31n rng 100).2

/-- The site selector for a seed. -/
def select (E : Extern) (seed : Int) (threshold : Int) (n : Nat) : List ℚ :=
  selectFrom E threshold n (E.newSource seed)

/-! ## Loops -/

/-- A counted loop whose body either panics (`none`) or appends output: the
bodies are run for the listed values of the loop variable, in order. -/
def forEach {α : Type} : List Nat → (Nat → Option (List α)) → Option (List α)
  | [], _ => some []
  | i :: is, body =>
    match body i with
    | none => none
    | some out =>
      match forEach is body with
      | none => none
      | some rest => some (out ++ rest)

/-! ## Subset-generation mode (`if seed > 0 { ... }`) -/

/-- The loop `for i, l := range inlines { if vstore[i] > 0 { csvw.Write(l.line) } }`;
the result lists the records handed to the CSV writer. -/
def subsetLoop (vstore : List ℚ) : List inlineRecord → Nat → Option (List (List String))
  | [], _ => some []
  | l :: ls, i =>
    match vstore[i]? with
    | none => none
    | some v =>
      match subsetLoop vstore ls (i + 1) with
      | none => none
      | some rest => some (if v > 0 then l.line :: rest else rest)

/-- The body of `if seed > 0` in `main`; `seed` and `threshold` are the flag
values (Go `int`), converted as in the call `fillRow(int64(seed), int32(threshold), vstore, -1)`. -/
def subsetMode (E : Extern) (inlines : List inlineRecord) (seed threshold : Int) :
    Option (List (List String)) :=
  match fillRow E seed (toInt32 threshold) (List.replicate (1 + inlines.length) 0) (-1) with
  | none => none
  | some vstore => subsetLoop vstore inlines 0

/-! ## Summary statistics and the linear system -/

/-- What `main` has computed when it reaches the call of `SolveVec`. -/
structure System where
  /-- The slice `trials` after `sort.Slice`. -/
  trials : List benchmarkTrial
  min : ℚ
  max : ℚ
  median : ℚ
  avg : ℚ
  /-- The rows of the dense matrix `a`. -/
  a : List (List ℚ)
  /-- The entries of the vector `b`. -/
  b : List ℚ

/-- The loop `for i, t := range trials { fillRow(t.seed, t.threshold, a.RawRowView(i), avg);
b.SetVec(i, t.time) }`. -/
def buildLoop (E : Extern) (avg : ℚ) :
    List benchmarkTrial → Nat → List (List ℚ) → List ℚ → Option (List (List ℚ) × List ℚ)
  | [], _, a, b => some (a, b)
  | t :: ts, i, a, b =>
    match a[i]? with
    | none => none
    | some row =>
      match fillRow E t.seed t.threshold row avg with
      | none => none
      | some row1 =>
        if i < b.length then buildLoop E avg ts (i + 1) (a.set i row1) (b.set i t.time)
        else none

/-- The comparison handed to `sort.Slice` for the trials:
`trials[i].time < trials[j].time`. -/
def timeLess (x y : benchmarkTrial) : Bool := decide (x.time < y.time)

/-- Lines 220-241 of `main`: sort the trials by time, take min, max, median and
mean, and fill the matrix `a` and the vector `b`. -/
def buildSystem (E : Extern) (inlines : List inlineRecord) (input : List benchmarkTrial) :
    Option System :=
  let trials := E.sortSlice timeLess input
  match trials[0]?, trials[trials.length - 1]?, trials[(trials.length - 1) / 2]?,
      trials[trials.length / 2]? with
  | some t0, some tl, some m1, some m2 =>
    let median := (m1.time + m2.time) / 2
    let total := trials.foldl (fun acc t => acc + t.time) 0
    let avg := total / (trials.length : ℚ)
    let a := List.replicate trials.length (List.replicate (1 + inlines.length) (0 : ℚ))
    let b := List.replicate trials.length (0 : ℚ)
    match buildLoop E avg trials 0 a b with
    | none => none
    | some ab =>
      some { trials := trials, min := t0.time, max := tl.time, median := median, avg := avg,
             a := ab.1, b := ab.2 }
  | _, _, _, _ => none

/-! ## Ranking -/

/-- The coefficient `vstore[i]`. -/
def coef (vstore : List ℚ) (i : Nat) : ℚ := vstore.getD i 0

/-- The comparison handed to `sort.Slice` for the indices:
`vstore[sortedOrder[i]] < vstore[sortedOrder[j]]`, on the elements compared. -/
def coefLess (vstore : List ℚ) (x y : Nat) : Bool := decide (coef vstore x < coef vstore y)

/-- Lines 246-252 of `main`: the indices `0 .. len(vstore)-1` sorted by coefficient. -/
def sortedOrder (E : Extern) (vstore : List ℚ) : List Nat :=
  E.sortSlice (coefLess vstore) (List.range vstore.length)

/-- The `Printf` of the first ten raw fields of a record, comma separated;
`none` when the record has fewer than ten fields (`line[9]` out of range). -/
def csvLine (line : List String) : Option String :=
  match line with
  | f0 :: f1 :: f2 :: f3 :: f4 :: f5 :: f6 :: f7 :: f8 :: f9 :: _ =>
    some (String.intercalate "," [f0, f1, f2, f3, f4, f5, f6, f7, f8, f9] ++ "\n")
  | _ => none

/-- Printing record `o`: `line := inlines[o].line` followed by the `Printf`. -/
def printRecord (inlines : List inlineRecord) (o : Nat) : Option (List String) :=
  match inlines[o]? with
  | none => none
  | some r =>
    match csvLine r.line with
    | none => none
    | some s => some [s]

/-- The block `if bestN > 0 { for i := 0; i < math.Min(bestN, len(sortedOrder)); i++ {...} }`
without the separator line. -/
def printBest (inlines : List inlineRecord) (sortedOrder : List Nat) (bestN : Int) :
    Option (List String) :=
  forEach (List.range (Min bestN sortedOrder.length).toNat) fun i =>
    match sortedOrder[i]? with
    | none => none
    | some o => printRecord inlines o

/-- The first loop of the worst block, which may extend the window `l` by one:
`if o == len(inlines) && l < len(sortedOrder) { l++; break }`.  The result is
the value of `l` after the loop. -/
def extendWindow (n : Nat) (sortedOrder : List Nat) (l : Nat) : List Nat → Option Nat
  | [] => some l
  | i :: is =>
    match sortedOrder[sortedOrder.length - l + i]? with
    | none => none
    | some o =>
      if o = n ∧ l < sortedOrder.length then some (l + 1)
      else extendWindow n sortedOrder l is

/-- The block `if worstN > 0 { ... }`: window computation, then the printing
loop that skips the constant term. -/
def printWorst (inlines : List inlineRecord) (sortedOrder : List Nat) (worstN : Int) :
    Option (List String) :=
  let l0 := (Min worstN sortedOrder.length).toNat
  match extendWindow inlines.length sortedOrder l0 (List.range l0) with
  | none => none
  | some l =>
    forEach (List.range l) fun i =>
      match sortedOrder[sortedOrder.length - l + i]? with
      | none => none
      | some o => if o = inlines.length then some [] else printRecord inlines o

/-- The branch `if bestN > 0 || worstN > 0 { ... return }` of `main`. -/
def bestWorst (inlines : List inlineRecord) (sortedOrder : List Nat) (bestN worstN : Int) :
    Option (List String) :=
  match (if bestN > 0 then
          (printBest inlines sortedOrder bestN).map
            (fun out => out ++ (if worstN > 0 then ["\n"] else []))
         else some []) with
  | none => none
  | some out1 =>
    match (if worstN > 0 then printWorst inlines sortedOrder worstN else some []) with
    | none => none
    | some out2 => some (out1 ++ out2)

/-- One line `sorted[%d] = %f, %s.%s at %d:%d inlines %s.%s, size %d` of the full report. -/
structure SortedLine where
  rank : Nat
  value : ℚ
  record : inlineRecord
deriving DecidableEq, Repr

/-- The loop of lines 301-307: the most-beneficial list of the full report. -/
def bestList (inlines : List inlineRecord) (vstore : List ℚ) (sortedOrder : List Nat) :
    Option (List SortedLine) :=
  forEach (List.range (Min 50 sortedOrder.length).toNat) fun i =>
    match sortedOrder[i]? with
    | none => none
    | some o =>
      match inlines[o]?, vstore[o]? with
      | some r, some v => some [{ rank := i, value := v, record := r }]
      | _, _ => none

/-! ## Full report -/

/-- A line of the regression output. -/
inductive Line where
  /-- The line `# Number of inlines is %d, trials is %d, min time is %f, ...`. -/
  | header (inlines trials : Nat) (min median avg max : ℚ)
  /-- A line of the best/worst branch, already formatted. -/
  | text (s : String)
  /-- The line `Base term = %f`. -/
  | base (value : ℚ)
  /-- The line `%dth percentile[%d] = %f`. -/
  | percentile (percent : Nat) (index : Nat) (value : ℚ)
  /-- The line `sorted[%d] = %f, %s.%s at %d:%d inlines %s.%s, size %d`. -/
  | sorted (l : SortedLine)
  /-- The line `sorted[%d] = %f, constant term`. -/
  | constant (rank : Nat) (value : ℚ)
  /-- The empty line of `fmt.Println()`. -/
  | blank
  /-- The trace line `At %d, alleged benefit is %f, last = %f`. -/
  | trace (count : Nat) (benefit last : ℚ)
  /-- The line `Number of negative coefficients = %d, alleged total benefit = %f`. -/
  | total (count : Nat) (benefit : ℚ)
deriving DecidableEq, Repr

/-- The index of lines 294-297: `j := (i*len(sortedOrder) + 5) / 10`, then
`if j == len(sortedOrder) { j-- }`; `i` and `len` are non-negative. -/
def percentileIndex (i len : Nat) : Int :=
  if (i * len + 5) / 10 = len then (((i * len + 5) / 10 : Nat) : Int) - 1
  else (((i * len + 5) / 10 : Nat) : Int)

/-- The loop of lines 293-299: the percentile table. -/
def percentileTable (vstore : List ℚ) (sortedOrder : List Nat) : Option (List Line) :=
  forEach (List.range 11) fun i =>
    if percentileIndex i sortedOrder.length < 0 then none
    else
      match sortedOrder[(percentileIndex i sortedOrder.length).toNat]? with
      | none => none
      | some o =>
        match vstore[o]? with
        | none => none
        | some v =>
          some [Line.percentile (i * 10) (percentileIndex i sortedOrder.length).toNat v]

/-- The loop of lines 309-322: the least-beneficial list, `i` running from
`math.Min(50, len(sortedOrder))` down to 1. -/
def worstList (inlines : List inlineRecord) (vstore : List ℚ) (sortedOrder : List Nat) :
    Option (List Line) :=
  forEach ((List.range (Min 50 sortedOrder.length).toNat).map
      (fun c => (Min 50 sortedOrder.length).toNat - c)) fun i =>
    match sortedOrder[sortedOrder.length - i]? with
    | none => none
    | some k =>
      if inlines.length ≤ k then
        match vstore[k]? with
        | none => none
        | some v => some [Line.constant (sortedOrder.length - i) v]
      else
        match inlines[k]?, vstore[k]? with
        | some r, some v =>
          some [Line.sorted { rank := sortedOrder.length - i, value := v, record := r }]
        | _, _ => none

/-- The variables of the final loop (lines 324-340), with the trace lines printed so far. -/
structure Scan where
  count : Nat
  benefit : ℚ
  printAtBenefit : ℚ
  trace : List Line
deriving DecidableEq, Repr

/-- The loop `for k, i := range sortedOrder { ... }` of lines 327-340; the case
`v >= 0` is the `break`. -/
def scanLoop (vstore : List ℚ) : List Nat → Nat → Scan → Option Scan
  | [], _, st => some st
  | i :: is, k, st =>
    match vstore[i]? with
    | none => none
    | some v =>
      if v ≥ 0 then some st
      else
        let count := st.count + 1
        let benefit := st.benefit + v
        if benefit ≤ st.printAtBenefit then
          scanLoop vstore is (k + 1)
            { count := count, benefit := benefit, printAtBenefit := st.printAtBenefit - 1,
              trace := if k < 50 then st.trace ++ [Line.trace count benefit v] else st.trace }
        else
          scanLoop vstore is (k + 1)
            { count := count, benefit := benefit, printAtBenefit := st.printAtBenefit,
              trace := st.trace }

/-- Lines 324-341: the final scan with its closing line. -/
def finalScan (vstore : List ℚ) (sortedOrder : List Nat) : Option (List Line) :=
  match scanLoop vstore sortedOrder 0
      { count := 0, benefit := 0, printAtBenefit := -1, trace := [] } with
  | none => none
  | some st => some (st.trace ++ [Line.total st.count st.benefit])

/-- Lines 291-341 of `main`: the full report after the header. -/
def fullReport (inlines : List inlineRecord) (vstore : List ℚ) (sortedOrder : List Nat) :
    Option (List Line) :=
  if vstore.length = 0 then none
  else
    match vstore[vstore.length - 1]? with
    | none => none
    | some base =>
      match percentileTable vstore sortedOrder with
      | none => none
      | some pct =>
        match bestList inlines vstore sortedOrder with
        | none => none
        | some best =>
          match worstList inlines vstore sortedOrder with
          | none => none
          | some worst =>
            match finalScan vstore sortedOrder with
            | none => none
            | some scan =>
              some (Line.base base :: pct ++ best.map Line.sorted ++ Line.blank :: worst ++ scan)

/-! ## The solve and the regression pipeline -/

/-- The call `v.SolveVec(a, b)` of gonum: the entries it leaves in the backing
slice `vstore` of `v`, and whether the error it returns is non-nil. -/
structure Solver where
  solveVec : List (List ℚ) → List ℚ → (Nat → ℚ) × Bool

/-- Lines 220-341 of `main`: the regression on the trials read.  The value
returned by `SolveVec` is discarded by the statement `v.SolveVec(a, b)`. -/
def regression (E : Extern) (S : Solver) (inlines : List inlineRecord)
    (input : List benchmarkTrial) (bestN worstN : Int) : Option (List Line) :=
  match buildSystem E inlines input with
  | none => none
  | some s =>
    let header := Line.header inlines.length s.trials.length s.min s.median s.avg s.max
    let vstore := (List.range (1 + inlines.length)).map (S.solveVec s.a s.b).1
    let sortedOrder := sortedOrder E vstore
    if bestN > 0 ∨ worstN > 0 then
      match bestWorst inlines sortedOrder bestN worstN with
      | none => none
      | some out => some (header :: out.map Line.text)
    else
      match fullReport inlines vstore sortedOrder with
      | none => none
      | some out => some (header :: out)

/-! ## main -/

/-- The flag values after `flag.Parse()`; the profiling flag is left out. -/
structure Flags where
  bestN : Int
  worstN : Int
  seed : Int
  threshold : Int

/-- The files as `readInlines` and `readBenchmarks` see them: the parsed
contents by file name, `none` when opening or parsing the file panics. -/
structure Files where
  readInlines : String → Option (List inlineRecord)
  readBenchmarks : String → Option (List benchmarkTrial)

/-- How a run of `main` ends. -/
inductive Exit where
  /-- The message printed before `flag.Usage()` and the plain `return`. -/
  | usage (message : String)
  /-- A run-time panic. -/
  | panic
  /-- Subset generation: the records handed to the CSV writer. -/
  | subset (records : List (List String))
  /-- The regression output. -/
  | report (lines : List Line)
deriving DecidableEq, Repr

/-- A run of `main`: the file names passed to `readInlines` and to
`readBenchmarks` (when they were called), and how the run ended. -/
structure Run where
  inlinesRead : Option String
  benchmarksRead : Option String
  exit : Exit
deriving DecidableEq, Repr

/-- Go's `main` from line 176 on, without the profiling block. -/
def main (E : Extern) (S : Solver) (files : Files) (flags : Flags) (args : List String) : Run :=
  if flags.seed = 0 ∧ args.length ≠ 2 then
    { inlinesRead := none, benchmarksRead := none,
      exit := Exit.usage "two files are required." }
  else if flags.seed ≠ 0 ∧ (flags.bestN > 0 ∨ flags.worstN > 0 ∨ args.length ≠ 1) then
    { inlinesRead := none, benchmarksRead := none,
      exit := Exit.usage
        "-seed is incompatible with -bestN, -worstN, and requires a single file argument" }
  else
    let randomBenchFile := if flags.seed = 0 then args.getD 1 "" else ""
    match args[0]? with
    | none => { inlinesRead := none, benchmarksRead := none, exit := Exit.panic }
    | some inlinesFile =>
      match files.readInlines inlinesFile with
      | none => { inlinesRead := some inlinesFile, benchmarksRead := none, exit := Exit.panic }
      | some inlines =>
        if flags.seed > 0 then
          match subsetMode E inlines flags.seed flags.threshold with
          | none =>
            { inlinesRead := some inlinesFile, benchmarksRead := none, exit := Exit.panic }
          | some out =>
            { inlinesRead := some inlinesFile, benchmarksRead := none, exit := Exit.subset out }
        else
          match files.readBenchmarks randomBenchFile with
          | none =>
            { inlinesRead := some inlinesFile, benchmarksRead := some randomBenchFile,
              exit := Exit.panic }
          | some trials =>
            match regression E S inlines trials flags.bestN flags.worstN with
            | none =>
              { inlinesRead := some inlinesFile, benchmarksRead := some randomBenchFile,
                exit := Exit.panic }
            | some lines =>
              { inlinesRead := some inlinesFile, benchmarksRead := some randomBenchFile,
                exit := Exit.report lines }

/-! ## Specification-side definitions -/

/-- The records whose selector entry is active, in input order, each as its raw
field list (specification 4.4, subset-generation mode). -/
def activeRecords (sel : List ℚ) (inlines : List inlineRecord) : List (List String) :=
  ((inlines.zip sel).filter (fun p => decide (0 < p.2))).map (fun p => p.1.line)

/-- The median in the words of the specification (4.3): on the sorted times,
the single middle value for an odd count, the average of the two middle
values for an even count. -/
def medianSpec (times : List ℚ) : ℚ :=
  let sorted := times.insertionSort (fun x y => x ≤ y)
  if times.length % 2 = 1 then sorted.getD (times.length / 2) 0
  else (sorted.getD (times.length / 2 - 1) 0 + sorted.getD (times.length / 2) 0) / 2

/-- The regression row of a trial: the selector's indicators followed by the constant. -/
def rowOf (E : Extern) (n : Nat) (avg : ℚ) (t : benchmarkTrial) : List ℚ :=
  select E t.seed t.threshold n ++ [avg]

/-- A record list used in the examples: one record per name, with ten raw fields. -/
def sampleRecord (name : String) : inlineRecord :=
  { callerPackage := "pkg", callerFunction := name, callerLine := 1, callerColumn := 2,
    inlinePackage := "lib", inlineFunction := "g", inlineSize := 3,
    line := ["x.go:1:2: ", "front_end", "INLINE_SITE", "pkg", name, "1", "2", "lib", "g", "3"] }

/-- Three records for the examples. -/
def sampleInlines : List inlineRecord := [sampleRecord "a", sampleRecord "b", sampleRecord "c"]

/-- Four trials for the examples, not in time order. -/
def sampleTrials : List benchmarkTrial :=
  [{ seed := 1, threshold := 50, time := 4, noise := -1 },
   { seed := 2, threshold := 50, time := 1, noise := -1 },
   { seed := 3, threshold := 67, time := 3, noise := 0 },
   { seed := 4, threshold := 67, time := 2, noise := 0 }]

/-- A sorted order of the coefficient vector `vstore`: a rearrangement of the
indices `0 .. len(vstore)-1` in which no index has a smaller coefficient than
one placed before it. -/
def IsSortedOrder (vstore : List ℚ) (so : List Nat) : Prop :=
  so.Perm (List.range vstore.length) ∧ so.Pairwise (fun p q => coef vstore p ≤ coef vstore q)

/-- Output line `s` is the `Printf` of the first ten raw fields of record `o`. -/
def Printed (inlines : List inlineRecord) (o : Nat) (s : String) : Prop :=
  ∃ r, inlines[o]? = some r ∧ csvLine r.line = some s

/-- The window length of the worst block after its first loop: the requested
window, extended by one when the constant term `n` lies in it and it can grow. -/
def worstWindow (n : Nat) (so : List Nat) (worstN : Int) : Nat :=
  if n ∈ so.drop (so.length - (Min worstN so.length).toNat) ∧
      (Min worstN so.length).toNat < so.length
  then (Min worstN so.length).toNat + 1
  else (Min worstN so.length).toNat

/-- The record indices the worst block prints, in printing order: the last
`worstWindow` entries of the sorted order without the constant term `n`. -/
def worstIndices (n : Nat) (so : List Nat) (worstN : Int) : List Nat :=
  (so.drop (so.length - worstWindow n so worstN)).filter (fun o => o != n)

/-- Four records for the examples of the best and worst lists. -/
def fourInlines : List inlineRecord :=
  [sampleRecord "a", sampleRecord "b", sampleRecord "c", sampleRecord "d"]

/-- A solver for the examples that reports failure (a non-nil error) on every
system and leaves -2 for the first record and 1 everywhere else. -/
def failingSolver : Solver :=
  { solveVec := fun _ _ => (fun i => if i = 0 then -2 else 1, true) }

/-- The same entries as `failingSolver`, reported as a success. -/
def succeedingSolver : Solver :=
  { solveVec := fun _ _ => (fun i => if i = 0 then -2 else 1, false) }

/-- Two trials with threshold 0: no site is active in either, so the column of
the only record is zero in both rows and the system is singular. -/
def flatTrials : List benchmarkTrial :=
  [{ seed := 1, threshold := 0, time := 4, noise := -1 },
   { seed := 2, threshold := 0, time := 2, noise := -1 }]

/-- Files for the examples: `inl.csv` holds one record, `bench.csv` the sample
trials, `flat.csv` the two threshold-0 trials, `empty.csv` no trial; every
other name, the empty name included, cannot be opened. -/
def sampleFiles : Files :=
  { readInlines := fun name => if name = "inl.csv" then some [sampleRecord "a"] else none
    readBenchmarks := fun name =>
      if name = "bench.csv" then some sampleTrials
      else if name = "flat.csv" then some flatTrials
      else if name = "empty.csv" then some []
      else none }

/-! ## Lemmas on fillRow -/

theorem set_length_append {α : Type} (pre : List α) (a x : α) (rest : List α) :
    (pre ++ a :: rest).set pre.length x = pre ++ x :: rest := by
  induction pre with
  | nil => rfl
  | cons p pre ih => simp [List.set, ih]

theorem fillLoop_append (E : Extern) (threshold : Int) :
    ∀ (k : Nat) (pre mid post : List ℚ) (rng : E.Rng), mid.length = k →
      fillLoop E threshold k pre.length rng (pre ++ (mid ++ post)) =
        pre ++ (selectFrom E threshold k rng ++ post) := by
  intro k
  induction k with
  | zero =>
    intro pre mid post rng hk
    have : mid = [] := List.length_eq_zero.mp hk
    simp [fillLoop, selectFrom, this]
  | succ k ih =>
    intro pre mid post rng hk
    cases mid with
    | nil => simp at hk
    | cons a mid =>
      have hk2 : mid.length = k := by simpa using hk
      have h := ih (pre ++ [if (E.int31n rng 100).1 < threshold then 1 else 0]) mid post
        (E.int31n rng 100).2 hk2
      simp only [List.length_append, List.length_singleton, List.append_assoc,
        List.singleton_append] at h
      simp only [fillLoop, selectFrom, List.cons_append, set_length_append]
      exact h

theorem length_selectFrom (E : Extern) (threshold : Int) :
    ∀ (k : Nat) (rng : E.Rng), (selectFrom E threshold k rng).length = k := by
  intro k
  induction k with
  | zero => intro rng; rfl
  | succ k ih => intro rng; simp [selectFrom, ih]

/-- Closed form of `fillRow` on a row of length `n + 1`: the selector's
indicators followed by `avg`. -/
theorem fillRow_eq (E : Extern) (seed threshold : Int) (n : Nat) (row : List ℚ) (avg : ℚ)
    (hlen : row.length = n + 1) :
    fillRow E seed threshold row avg = some (select E seed threshold n ++ [avg]) := by
  obtain ⟨mid, a, rfl⟩ : ∃ mid a, row = mid ++ [a] := by
    rcases List.eq_nil_or_concat row with h | ⟨mid, a, h⟩
    · simp [h] at hlen
    · exact ⟨mid, a, by simpa using h⟩
  have hmid : mid.length = n := by simpa using hlen
  have hset : (mid ++ [a]).set (mid.length + 1 - 1) avg = mid ++ [avg] := by
    simp
  have h := fillLoop_append E threshold n [] mid [avg] (E.newSource seed) hmid
  simp only [List.length_nil, List.nil_append] at h
  simp [fillRow, select, hset, hmid, h]

theorem selectFrom_zero_one (E : Extern) (threshold : Int) :
    ∀ (k : Nat) (rng : E.Rng), ∀ x ∈ selectFrom E threshold k rng, x = 0 ∨ x = 1 := by
  intro k
  induction k with
  | zero => intro rng x hx; simp [selectFrom] at hx
  | succ k ih =>
    intro rng x hx
    simp only [selectFrom, List.mem_cons] at hx
    rcases hx with hx | hx
    · by_cases h : (E.int31n rng 100).1 < threshold
      · right; simpa [h] using hx
      · left; simpa [h] using hx
    · exact ih _ x hx

theorem selectFrom_threshold_zero (E : Extern) (hR : E.DrawsInRange) :
    ∀ (k : Nat) (rng : E.Rng), selectFrom E 0 k rng = List.replicate k 0 := by
  intro k
  induction k with
  | zero => intro rng; rfl
  | succ k ih =>
    intro rng
    have h : ¬ (E.int31n rng 100).1 < 0 := not_lt.mpr (hR rng).1
    simp [selectFrom, ih, h, List.replicate_succ]

theorem selectFrom_threshold_hundred (E : Extern) (hR : E.DrawsInRange) :
    ∀ (k : Nat) (rng : E.Rng), selectFrom E 100 k rng = List.replicate k 1 := by
  intro k
  induction k with
  | zero => intro rng; rfl
  | succ k ih =>
    intro rng
    have h : (E.int31n rng 100).1 < 100 := (hR rng).2
    simp [selectFrom, ih, h, List.replicate_succ]

theorem refExtern_drawsInRange : refExtern.DrawsInRange := by
  intro s
  constructor
  · exact Int.emod_nonneg _ (by decide)
  · exact Int.emod_lt_of_pos _ (by decide)

theorem getElem?_length_append {α : Type} (pre : List α) (v : α) (rest : List α) :
    (pre ++ v :: rest)[pre.length]? = some v := by
  induction pre with
  | nil => simp
  | cons p pre ih => simpa using ih

theorem subsetLoop_append :
    ∀ (ls : List inlineRecord) (pre sel post : List ℚ), sel.length = ls.length →
      subsetLoop (pre ++ (sel ++ post)) ls pre.length = some (activeRecords sel ls) := by
  intro ls
  induction ls with
  | nil =>
    intro pre sel post h
    have : sel = [] := List.length_eq_zero.mp h
    simp [subsetLoop, activeRecords, this]
  | cons l ls ih =>
    intro pre sel post h
    cases sel with
    | nil => simp at h
    | cons v sel =>
      have h2 : sel.length = ls.length := by simpa using h
      have hi := ih (pre ++ [v]) sel post h2
      simp only [List.length_append, List.length_singleton, List.append_assoc,
        List.singleton_append] at hi
      have hget : (pre ++ v :: (sel ++ post))[pre.length]? = some v :=
        getElem?_length_append pre v (sel ++ post)
      simp only [List.cons_append, subsetLoop, hget, hi]
      by_cases hv : 0 < v <;> simp [activeRecords, hv]

/-- Closed form of subset-generation mode. -/
theorem subsetMode_eq (E : Extern) (inlines : List inlineRecord) (seed threshold : Int) :
    subsetMode E inlines seed threshold =
      some (activeRecords (select E seed (toInt32 threshold) inlines.length) inlines) := by
  have hlen : (List.replicate (1 + inlines.length) (0 : ℚ)).length = inlines.length + 1 := by
    simp [Nat.add_comm]
  have hsel : (select E seed (toInt32 threshold) inlines.length).length = inlines.length :=
    length_selectFrom E _ _ _
  have h := subsetLoop_append inlines [] (select E seed (toInt32 threshold) inlines.length) [-1] hsel
  simp only [List.length_nil, List.nil_append] at h
  simp only [subsetMode, fillRow_eq E seed (toInt32 threshold) inlines.length _ (-1) hlen, h]

theorem activeRecords_sublist (sel : List ℚ) (inlines : List inlineRecord) :
    (activeRecords sel inlines).Sublist (inlines.map (fun r => r.line)) := by
  induction inlines generalizing sel with
  | nil => simp [activeRecords]
  | cons l ls ih =>
    cases sel with
    | nil => simp [activeRecords]
    | cons v sel =>
      have h := ih sel
      unfold activeRecords at h ⊢
      by_cases hv : 0 < v
      · simpa [hv] using h
      · simp only [List.zip_cons_cons, hv, decide_False, Bool.false_eq_true, not_false_eq_true,
          List.filter_cons_of_neg, List.map_cons]
        exact List.Sublist.cons _ h

theorem activeRecords_ones (inlines : List inlineRecord) :
    activeRecords (List.replicate inlines.length 1) inlines = inlines.map (fun r => r.line) := by
  induction inlines with
  | nil => simp [activeRecords]
  | cons l ls ih =>
    unfold activeRecords at ih ⊢
    simp [List.replicate_succ, ih]

theorem activeRecords_zeros (inlines : List inlineRecord) :
    activeRecords (List.replicate inlines.length 0) inlines = [] := by
  induction inlines with
  | nil => simp [activeRecords]
  | cons l ls ih =>
    unfold activeRecords at ih ⊢
    simp [List.replicate_succ, ih]

/-! ## Claims on the site selector and subset generation -/

/-- C1: on a row of length `n + 1` the first `n` entries written by `fillRow`
are the selector's indicators for `(seed, threshold, n)`, whatever `avg` and the
prior contents of the row are; and a column is kept by subset-generation mode
(entry `> 0` after `fillRow` with `avg = -1`) exactly when that column of the
regression row for the same seed and threshold equals `1`. -/
theorem fillRow_selection_deterministic (E : Extern) (seed threshold : Int) (n : Nat)
    (row1 row2 : List ℚ) (avg1 avg2 : ℚ)
    (h1 : row1.length = n + 1) (h2 : row2.length = n + 1) :
    ∃ r1 r2 sub,
      fillRow E seed threshold row1 avg1 = some r1 ∧
      fillRow E seed threshold row2 avg2 = some r2 ∧
      fillRow E seed threshold (List.replicate (1 + n) 0) (-1) = some sub ∧
      r1.take n = select E seed threshold n ∧
      r1.take n = r2.take n ∧
      ∀ i, i < n → (0 < sub.getD i 0 ↔ r1.getD i 0 = 1) := by
  have hs : (select E seed threshold n).length = n := length_selectFrom E _ _ _
  have h0 : (List.replicate (1 + n) (0 : ℚ)).length = n + 1 := by simp [Nat.add_comm]
  refine ⟨_, _, _, fillRow_eq E seed threshold n row1 avg1 h1,
    fillRow_eq E seed threshold n row2 avg2 h2,
    fillRow_eq E seed threshold n _ (-1) h0, ?_, ?_, ?_⟩
  · simp [List.take_append_of_le_length, hs]
  · simp [List.take_append_of_le_length, hs]
  · intro i hi
    have hi2 : i < (select E seed threshold n).length := by omega
    have hmem : (select E seed threshold n)[i] ∈ select E seed threshold n :=
      List.getElem_mem hi2
    have h01 := selectFrom_zero_one E threshold n (E.newSource seed) _ hmem
    simp only [List.getD_eq_getElem?_getD, List.getElem?_append_left hi2,
      List.getElem?_eq_getElem hi2, Option.getD_some]
    rcases h01 with h | h <;> simp [h]

/-- Instance of C1 on three sites with two different rows and constants. -/
theorem fillRow_selection_deterministic_witness :
    ∃ r1 r2 sub,
      fillRow refExtern 1 50 [0, 0, 0, 0] 7 = some r1 ∧
      fillRow refExtern 1 50 [9, 9, 9, 9] 3 = some r2 ∧
      fillRow refExtern 1 50 (List.replicate (1 + 3) 0) (-1) = some sub ∧
      r1.take 3 = select refExtern 1 50 3 ∧
      r1.take 3 = r2.take 3 ∧
      ∀ i, i < 3 → (0 < sub.getD i 0 ↔ r1.getD i 0 = 1) :=
  fillRow_selection_deterministic refExtern 1 50 3 [0, 0, 0, 0] [9, 9, 9, 9] 7 3 rfl rfl

/-- C2: when every draw `Int31n(100)` lies in `[0,100)`, `fillRow` with
threshold 0 sets the first `n` entries to 0 and with threshold 100 sets them
to 1, for every seed and every `n`. -/
theorem fillRow_threshold_extremes (E : Extern) (hR : E.DrawsInRange) (seed : Int) (n : Nat)
    (row : List ℚ) (avg : ℚ) (hlen : row.length = n + 1) :
    fillRow E seed 0 row avg = some (List.replicate n 0 ++ [avg]) ∧
    fillRow E seed 100 row avg = some (List.replicate n 1 ++ [avg]) := by
  constructor
  · rw [fillRow_eq E seed 0 n row avg hlen, select, selectFrom_threshold_zero E hR]
  · rw [fillRow_eq E seed 100 n row avg hlen, select, selectFrom_threshold_hundred E hR]

/-- Instance of C2 on a row for two sites. -/
theorem fillRow_threshold_extremes_witness :
    fillRow refExtern 5 0 [4, 4, 4] 7 = some (List.replicate 2 0 ++ [7]) ∧
    fillRow refExtern 5 100 [4, 4, 4] 7 = some (List.replicate 2 1 ++ [7]) :=
  fillRow_threshold_extremes refExtern refExtern_drawsInRange 5 2 [4, 4, 4] 7 rfl

/-- C3: subset-generation mode hands to the CSV writer exactly the raw field
lists of the records whose selector entry is active, in input order (a
subsequence of the input); with threshold 100 every record is emitted, with
threshold 0 none.  The branch is the one `main` takes when `seed > 0`. -/
theorem subsetMode_emits_active (E : Extern) (hR : E.DrawsInRange)
    (inlines : List inlineRecord) (seed threshold : Int) (hseed : 0 < seed) :
    (∃ out, subsetMode E inlines seed threshold = some out ∧
      out = activeRecords (select E seed (toInt32 threshold) inlines.length) inlines ∧
      out.Sublist (inlines.map (fun r => r.line))) ∧
    subsetMode E inlines seed 100 = some (inlines.map (fun r => r.line)) ∧
    subsetMode E inlines seed 0 = some [] := by
  have _ := hseed
  refine ⟨⟨_, subsetMode_eq E inlines seed threshold, rfl, activeRecords_sublist _ _⟩, ?_, ?_⟩
  · have h100 : toInt32 100 = 100 := by decide
    rw [subsetMode_eq, h100, select, selectFrom_threshold_hundred E hR, activeRecords_ones]
  · have h0 : toInt32 0 = 0 := by decide
    rw [subsetMode_eq, h0, select, selectFrom_threshold_zero E hR, activeRecords_zeros]

/-- Instance of C3 on three records. -/
theorem subsetMode_emits_active_witness :
    (∃ out, subsetMode refExtern [sampleRecord "a", sampleRecord "b", sampleRecord "c"] 1 50
        = some out ∧
      out = activeRecords (select refExtern 1 (toInt32 50) 3)
        [sampleRecord "a", sampleRecord "b", sampleRecord "c"] ∧
      out.Sublist ([sampleRecord "a", sampleRecord "b", sampleRecord "c"].map (fun r => r.line))) ∧
    subsetMode refExtern [sampleRecord "a", sampleRecord "b", sampleRecord "c"] 1 100 =
      some ([sampleRecord "a", sampleRecord "b", sampleRecord "c"].map (fun r => r.line)) ∧
    subsetMode refExtern [sampleRecord "a", sampleRecord "b", sampleRecord "c"] 1 0 = some [] :=
  subsetMode_emits_active refExtern refExtern_drawsInRange
    [sampleRecord "a", sampleRecord "b", sampleRecord "c"] 1 50 (by decide)

/-! ## Lemmas on the linear system -/

theorem buildLoop_append (E : Extern) (avg : ℚ) (n : Nat) :
    ∀ (ts : List benchmarkTrial) (doneA restA : List (List ℚ)) (doneB restB : List ℚ),
      doneB.length = doneA.length → restA.length = ts.length → restB.length = ts.length →
      (∀ row ∈ restA, row.length = n + 1) →
      buildLoop E avg ts doneA.length (doneA ++ restA) (doneB ++ restB) =
        some (doneA ++ ts.map (rowOf E n avg), doneB ++ ts.map (fun t => t.time)) := by
  intro ts
  induction ts with
  | nil =>
    intro doneA restA doneB restB _ hA hB _
    have h1 : restA = [] := List.length_eq_zero.mp hA
    have h2 : restB = [] := List.length_eq_zero.mp hB
    simp [buildLoop, h1, h2]
  | cons t ts ih =>
    intro doneA restA doneB restB hd hA hB hrow
    cases restA with
    | nil => simp at hA
    | cons row restA =>
      cases restB with
      | nil => simp at hB
      | cons x restB =>
        have hA2 : restA.length = ts.length := by simpa using hA
        have hB2 : restB.length = ts.length := by simpa using hB
        have hlen : row.length = n + 1 := hrow row (List.mem_cons_self _ _)
        have hi := ih (doneA ++ [rowOf E n avg t]) restA (doneB ++ [t.time]) restB
          (by simp [hd]) hA2 hB2 (fun r hr => hrow r (List.mem_cons_of_mem _ hr))
        simp only [List.length_append, List.length_singleton, List.append_assoc,
          List.singleton_append] at hi
        have hlt : doneA.length < (doneB ++ x :: restB).length := by simp [hd]
        have hsetB : (doneB ++ x :: restB).set doneA.length t.time = doneB ++ t.time :: restB := by
          rw [← hd]; exact set_length_append doneB x t.time restB
        simp only [buildLoop, getElem?_length_append, fillRow_eq E t.seed t.threshold n row avg hlen,
          hlt, if_true, set_length_append, hsetB, List.map_cons]
        exact hi

theorem foldl_time_eq_sum (ts : List benchmarkTrial) (acc : ℚ) :
    ts.foldl (fun acc t => acc + t.time) acc = acc + (ts.map (fun t => t.time)).sum := by
  induction ts generalizing acc with
  | nil => simp
  | cons t ts ih => simp [List.foldl, ih, add_assoc]

/-- Closed form of `buildSystem` in terms of the sorted trial list, for a
non-empty input. -/
theorem buildSystem_eq (E : Extern) (inlines : List inlineRecord) (input : List benchmarkTrial)
    (hlen : (E.sortSlice timeLess input).length = input.length) (hne : input ≠ []) :
    buildSystem E inlines input = some
      { trials := E.sortSlice timeLess input
        min := ((E.sortSlice timeLess input).map (fun t => t.time)).getD 0 0
        max := ((E.sortSlice timeLess input).map (fun t => t.time)).getD (input.length - 1) 0
        median := (((E.sortSlice timeLess input).map (fun t => t.time)).getD
                      ((input.length - 1) / 2) 0 +
                   ((E.sortSlice timeLess input).map (fun t => t.time)).getD
                      (input.length / 2) 0) / 2
        avg := ((E.sortSlice timeLess input).map (fun t => t.time)).sum / (input.length : ℚ)
        a := (E.sortSlice timeLess input).map
          (rowOf E inlines.length
            (((E.sortSlice timeLess input).map (fun t => t.time)).sum / (input.length : ℚ)))
        b := (E.sortSlice timeLess input).map (fun t => t.time) } := by
  generalize hT : E.sortSlice timeLess input = T at hlen ⊢
  have hpos : 0 < input.length := List.length_pos.mpr hne
  have h0 : 0 < T.length := by omega
  have h1 : T.length - 1 < T.length := by omega
  have h2 : (T.length - 1) / 2 < T.length := by omega
  have h3 : T.length / 2 < T.length := by omega
  have hloop := buildLoop_append E ((T.map (fun t => t.time)).sum / (T.length : ℚ))
    inlines.length T [] (List.replicate T.length (List.replicate (1 + inlines.length) (0 : ℚ)))
    [] (List.replicate T.length (0 : ℚ)) rfl (by simp) (by simp)
    (by intro row hrow; rw [List.eq_of_mem_replicate hrow]; simp [Nat.add_comm])
  simp only [List.length_nil, List.nil_append] at hloop
  simp only [buildSystem, hT, List.getElem?_eq_getElem h0, List.getElem?_eq_getElem h1,
    List.getElem?_eq_getElem h2, List.getElem?_eq_getElem h3, foldl_time_eq_sum, zero_add, hloop]
  simp [← hlen, List.getD_eq_getElem?_getD, List.getElem?_eq_getElem, h0, h1, h2, h3]

theorem sortSlice_trials (E : Extern) (hS : E.SortOk) (input : List benchmarkTrial) :
    (E.sortSlice timeLess input).Perm input ∧
    (E.sortSlice timeLess input).Pairwise (fun x y => x.time ≤ y.time) := by
  obtain ⟨hp, hs⟩ := hS timeLess input
  refine ⟨hp, ?_⟩
  have h := hs
    (by
      intro a b
      by_cases hab : a.time ≤ b.time
      · left; simpa [timeLess] using hab
      · right; simpa [timeLess] using le_of_lt (not_le.mp hab))
    (by
      intro a b c h1 h2
      simp only [timeLess, decide_eq_false_iff_not, not_lt] at h1 h2 ⊢
      exact le_trans h1 h2)
  exact h.imp (by intro a b hab; simpa [timeLess] using hab)

theorem sorted_times_eq (E : Extern) (hS : E.SortOk) (input : List benchmarkTrial) :
    (E.sortSlice timeLess input).map (fun t => t.time) =
      (input.map (fun t => t.time)).insertionSort (fun x y => x ≤ y) := by
  obtain ⟨hp, hs⟩ := sortSlice_trials E hS input
  apply List.eq_of_perm_of_sorted (r := fun x y : ℚ => x ≤ y)
  · exact (hp.map _).trans (List.perm_insertionSort _ _).symm
  · exact List.pairwise_map.mpr hs
  · exact List.sorted_insertionSort _ _

theorem sorted_getD_le (st : List ℚ) (hs : st.Pairwise (fun x y => x ≤ y)) (i j : Nat)
    (hij : i ≤ j) (hj : j < st.length) : st.getD i 0 ≤ st.getD j 0 := by
  have hi : i < st.length := by omega
  have h := List.Sorted.rel_get_of_le (r := fun x y : ℚ => x ≤ y) hs
    (a := ⟨i, hi⟩) (b := ⟨j, hj⟩) hij
  simpa [List.getD_eq_getElem?_getD, List.getElem?_eq_getElem hi, List.getElem?_eq_getElem hj]
    using h

theorem getD_mem (st : List ℚ) (i : Nat) (hi : i < st.length) : st.getD i 0 ∈ st := by
  simp [List.getD_eq_getElem?_getD, List.getElem?_eq_getElem hi]

/-! ## Claims on the linear system and the summary statistics -/

/-- C4: for a non-empty trial list and `n` records the matrix has one row per
trial, every row has `n + 1` entries, each of the first `n` is 0 or 1, and the
last entry of every row is the arithmetic mean of all trial times. -/
theorem design_matrix_shape (E : Extern) (hS : E.SortOk) (inlines : List inlineRecord)
    (input : List benchmarkTrial) (hne : input ≠ []) :
    ∃ s, buildSystem E inlines input = some s ∧
      s.a.length = input.length ∧
      ∀ row ∈ s.a,
        row.length = inlines.length + 1 ∧
        (∀ i, i < inlines.length → row.getD i 0 = 0 ∨ row.getD i 0 = 1) ∧
        row.getD inlines.length 0 =
          (input.map (fun t => t.time)).sum / (input.length : ℚ) := by
  obtain ⟨hp, _⟩ := sortSlice_trials E hS input
  refine ⟨_, buildSystem_eq E inlines input hp.length_eq hne, ?_, ?_⟩
  · simp [hp.length_eq]
  · intro row hrow
    simp only [List.mem_map] at hrow
    obtain ⟨t, _, rfl⟩ := hrow
    have hsl : (select E t.seed t.threshold inlines.length).length = inlines.length :=
      length_selectFrom E _ _ _
    refine ⟨by simp [rowOf, hsl], ?_, ?_⟩
    · intro i hi
      have hi2 : i < (select E t.seed t.threshold inlines.length).length := by omega
      have hmem := List.getElem_mem hi2
      have h01 := selectFrom_zero_one E t.threshold inlines.length (E.newSource t.seed) _ hmem
      simpa [rowOf, List.getD_eq_getElem?_getD, List.getElem?_append_left hi2,
        List.getElem?_eq_getElem hi2] using h01
    · have hsum := (hp.map (fun t : benchmarkTrial => t.time)).sum_eq
      have hget : (select E t.seed t.threshold inlines.length ++
          [((E.sortSlice timeLess input).map (fun t => t.time)).sum / (input.length : ℚ)])[
            inlines.length]? =
          some (((E.sortSlice timeLess input).map (fun t => t.time)).sum / (input.length : ℚ)) := by
        have := getElem?_length_append (select E t.seed t.threshold inlines.length)
          (((E.sortSlice timeLess input).map (fun t => t.time)).sum / (input.length : ℚ)) []
        rwa [hsl] at this
      simp only [rowOf, List.getD_eq_getElem?_getD]
      rw [hget, Option.getD_some, hsum]

/-- C5 (amended): `main` sorts the trial slice in place by time before it
builds the system, so `b[i]` is the time of the `i`-th trial in ascending-time
order (`b` is the sorted list of the input times), and row `i` of the matrix is
the `fillRow` result for that same `i`-th sorted trial. -/
theorem target_vector_in_sorted_order (E : Extern) (hS : E.SortOk)
    (inlines : List inlineRecord) (input : List benchmarkTrial) (hne : input ≠ []) :
    ∃ s, buildSystem E inlines input = some s ∧
      s.trials = E.sortSlice timeLess input ∧
      s.trials.Perm input ∧
      s.trials.Pairwise (fun x y => x.time ≤ y.time) ∧
      s.b = (input.map (fun t => t.time)).insertionSort (fun x y => x ≤ y) ∧
      ∀ (i : Nat) (t : benchmarkTrial), s.trials[i]? = some t →
        s.b[i]? = some t.time ∧
        ∃ row, s.a[i]? = some row ∧
          fillRow E t.seed t.threshold (List.replicate (1 + inlines.length) 0) s.avg = some row := by
  obtain ⟨hp, hs⟩ := sortSlice_trials E hS input
  refine ⟨_, buildSystem_eq E inlines input hp.length_eq hne, rfl, hp, hs,
    sorted_times_eq E hS input, ?_⟩
  intro i t hit
  refine ⟨?_, rowOf E inlines.length
    (((E.sortSlice timeLess input).map (fun t => t.time)).sum / (input.length : ℚ)) t, ?_, ?_⟩
  · simp [hit]
  · simp [hit]
  · rw [fillRow_eq E t.seed t.threshold inlines.length _ _ (by simp [Nat.add_comm])]
    rfl

/-- Two trials given in descending-time order: the target vector comes out as
`[1, 2]`, not in the input order `[2, 1]`. -/
theorem target_vector_order_counterexample :
    (buildSystem refExtern [sampleRecord "a"]
        [{ seed := 1, threshold := 50, time := 2, noise := -1 },
         { seed := 2, threshold := 50, time := 1, noise := -1 }]).map (fun s => s.b)
      = some [1, 2] ∧
    ([{ seed := 1, threshold := 50, time := 2, noise := -1 },
      { seed := 2, threshold := 50, time := 1, noise := -1 }] : List benchmarkTrial).map
        (fun t => t.time) = [2, 1] := by
  decide

/-- C6: for a non-empty trial list the median computed by `main` is the
specification's median of the times (middle sorted value for an odd count,
average of the two middle sorted values for an even count), the reported
minimum and maximum are the smallest and the largest time; times `[1,2,3]`
give 2 and times `[1,2,3,4]` give 5/2. -/
theorem summary_statistics (E : Extern) (hS : E.SortOk) (inlines : List inlineRecord)
    (input : List benchmarkTrial) (hne : input ≠ []) :
    (∃ s, buildSystem E inlines input = some s ∧
      s.median = medianSpec (input.map (fun t => t.time)) ∧
      (s.min ∈ input.map (fun t => t.time) ∧ ∀ x ∈ input.map (fun t => t.time), s.min ≤ x) ∧
      (s.max ∈ input.map (fun t => t.time) ∧ ∀ x ∈ input.map (fun t => t.time), x ≤ s.max)) ∧
    medianSpec [1, 2, 3] = 2 ∧ medianSpec [1, 2, 3, 4] = 5 / 2 := by
  obtain ⟨hp, hs⟩ := sortSlice_trials E hS input
  have hst := sorted_times_eq E hS input
  have hpos : 0 < input.length := List.length_pos.mpr hne
  have hpm := hp.map (fun t : benchmarkTrial => t.time)
  have hsm : ((E.sortSlice timeLess input).map (fun t => t.time)).Pairwise (fun x y => x ≤ y) :=
    List.pairwise_map.mpr hs
  have hlen : ((E.sortSlice timeLess input).map (fun t => t.time)).length = input.length := by
    simp [hp.length_eq]
  refine ⟨⟨_, buildSystem_eq E inlines input hp.length_eq hne, ?_, ⟨?_, ?_⟩, ⟨?_, ?_⟩⟩, ?_, ?_⟩
  · simp only [medianSpec, List.length_map, ← hst]
    by_cases hodd : input.length % 2 = 1
    · have h1 : (input.length - 1) / 2 = input.length / 2 := by omega
      simp only [hodd, if_true, h1]
      ring
    · have h1 : (input.length - 1) / 2 = input.length / 2 - 1 := by omega
      simp only [hodd, if_false, h1]
  · exact hpm.mem_iff.mp (getD_mem _ 0 (by omega))
  · intro x hx
    obtain ⟨j, hj, rfl⟩ := List.getElem_of_mem (hpm.mem_iff.mpr hx)
    have := sorted_getD_le _ hsm 0 j (Nat.zero_le _) hj
    simpa [List.getD_eq_getElem?_getD, List.getElem?_eq_getElem hj] using this
  · exact hpm.mem_iff.mp (getD_mem _ (input.length - 1) (by omega))
  · intro x hx
    obtain ⟨j, hj, rfl⟩ := List.getElem_of_mem (hpm.mem_iff.mpr hx)
    have := sorted_getD_le _ hsm j (input.length - 1) (by omega) (by omega)
    simpa [List.getD_eq_getElem?_getD, List.getElem?_eq_getElem hj] using this
  · norm_num [medianSpec, List.insertionSort, List.orderedInsert]
  · norm_num [medianSpec, List.insertionSort, List.orderedInsert]

theorem refExtern_sortOk : refExtern.SortOk := by
  intro α less l
  refine ⟨List.perm_insertionSort _ _, ?_⟩
  intro htot htrans
  haveI : IsTotal α (fun a b => less b a = false) := ⟨htot⟩
  haveI : IsTrans α (fun a b => less b a = false) := ⟨htrans⟩
  exact List.sorted_insertionSort (fun a b => less b a = false) l

/-- Instance of C4 on the sample records and trials. -/
theorem design_matrix_shape_witness :
    ∃ s, buildSystem refExtern sampleInlines sampleTrials = some s ∧
      s.a.length = sampleTrials.length ∧
      ∀ row ∈ s.a,
        row.length = sampleInlines.length + 1 ∧
        (∀ i, i < sampleInlines.length → row.getD i 0 = 0 ∨ row.getD i 0 = 1) ∧
        row.getD sampleInlines.length 0 =
          (sampleTrials.map (fun t => t.time)).sum / (sampleTrials.length : ℚ) :=
  design_matrix_shape refExtern refExtern_sortOk sampleInlines sampleTrials (by decide)

/-- Instance of the amended C5 on the sample records and trials. -/
theorem target_vector_in_sorted_order_witness :
    ∃ s, buildSystem refExtern sampleInlines sampleTrials = some s ∧
      s.trials = refExtern.sortSlice timeLess sampleTrials ∧
      s.trials.Perm sampleTrials ∧
      s.trials.Pairwise (fun x y => x.time ≤ y.time) ∧
      s.b = (sampleTrials.map (fun t => t.time)).insertionSort (fun x y => x ≤ y) ∧
      ∀ (i : Nat) (t : benchmarkTrial), s.trials[i]? = some t →
        s.b[i]? = some t.time ∧
        ∃ row, s.a[i]? = some row ∧
          fillRow refExtern t.seed t.threshold (List.replicate (1 + sampleInlines.length) 0) s.avg
            = some row :=
  target_vector_in_sorted_order refExtern refExtern_sortOk sampleInlines sampleTrials (by decide)

/-- Instance of C6 on the sample records and trials. -/
theorem summary_statistics_witness :
    (∃ s, buildSystem refExtern sampleInlines sampleTrials = some s ∧
      s.median = medianSpec (sampleTrials.map (fun t => t.time)) ∧
      (s.min ∈ sampleTrials.map (fun t => t.time) ∧
        ∀ x ∈ sampleTrials.map (fun t => t.time), s.min ≤ x) ∧
      (s.max ∈ sampleTrials.map (fun t => t.time) ∧
        ∀ x ∈ sampleTrials.map (fun t => t.time), x ≤ s.max)) ∧
    medianSpec [1, 2, 3] = 2 ∧ medianSpec [1, 2, 3, 4] = 5 / 2 :=
  summary_statistics refExtern refExtern_sortOk sampleInlines sampleTrials (by decide)

/-! ## Lemmas on loops -/

theorem forEach_congr {α : Type} (is : List Nat) (b1 b2 : Nat → Option (List α))
    (h : ∀ i ∈ is, b1 i = b2 i) : forEach is b1 = forEach is b2 := by
  induction is with
  | nil => rfl
  | cons i is ih =>
    have hi := h i (List.mem_cons_self _ _)
    have ht := ih (fun j hj => h j (List.mem_cons_of_mem _ hj))
    simp only [forEach, hi, ht]

theorem forEach_map {α : Type} (is : List Nat) (f : Nat → Nat) (body : Nat → Option (List α)) :
    forEach (is.map f) body = forEach is (fun i => body (f i)) := by
  induction is with
  | nil => rfl
  | cons i is ih => simp only [List.map_cons, forEach, ih]

theorem forEach_eq_none {α : Type} (is : List Nat) (body : Nat → Option (List α)) (i : Nat)
    (hi : i ∈ is) (hb : body i = none) : forEach is body = none := by
  induction is with
  | nil => simp at hi
  | cons j is ih =>
    rcases List.mem_cons.mp hi with rfl | hmem
    · simp only [forEach, hb]
    · simp only [forEach, ih hmem]
      cases body j <;> rfl

/-- A loop over the positions of a list that reads the element at each position
is a loop over the elements. -/
theorem forEach_range_getElem? {α : Type} (xs : List Nat) (k : Nat → Option (List α)) :
    forEach (List.range xs.length)
      (fun i => match xs[i]? with
        | none => none
        | some o => k o) = forEach xs k := by
  induction xs with
  | nil => rfl
  | cons x xs ih =>
    rw [List.length_cons, List.range_succ_eq_map, forEach, forEach_map]
    simp only [List.getElem?_cons_zero, Nat.succ_eq_add_one, List.getElem?_cons_succ, ih]
    rfl

theorem forEach_suffix {α : Type} (so : List Nat) (l : Nat) (hl : l ≤ so.length)
    (k : Nat → Option (List α)) :
    forEach (List.range l)
      (fun i => match so[so.length - l + i]? with
        | none => none
        | some o => k o) = forEach (so.drop (so.length - l)) k := by
  have hlen : (so.drop (so.length - l)).length = l := by simp; omega
  have h := forEach_range_getElem? (so.drop (so.length - l)) k
  rw [hlen] at h
  rw [← h]
  apply forEach_congr
  intro i _
  simp only [List.getElem?_drop]

theorem forEach_prefix {α : Type} (so : List Nat) (m : Nat) (hm : m ≤ so.length)
    (k : Nat → Option (List α)) :
    forEach (List.range m)
      (fun i => match so[i]? with
        | none => none
        | some o => k o) = forEach (so.take m) k := by
  have hlen : (so.take m).length = m := by simp; omega
  have h := forEach_range_getElem? (so.take m) k
  rw [hlen] at h
  rw [← h]
  apply forEach_congr
  intro i hi
  have hi2 : i < m := List.mem_range.mp hi
  simp only [List.getElem?_take, hi2, if_true]

/-! ## Lemmas on printing records -/

theorem csvLine_some (line : List String) (h : 10 ≤ line.length) :
    ∃ s, csvLine line = some s := by
  rcases line with _ | ⟨f0, _ | ⟨f1, _ | ⟨f2, _ | ⟨f3, _ | ⟨f4, _ | ⟨f5, _ | ⟨f6, _ | ⟨f7,
    _ | ⟨f8, _ | ⟨f9, rest⟩⟩⟩⟩⟩⟩⟩⟩⟩⟩
  all_goals first
    | (simp at h; done)
    | exact ⟨_, rfl⟩

theorem printRecord_some (inlines : List inlineRecord)
    (hwf : ∀ r ∈ inlines, 10 ≤ r.line.length) (o : Nat) (ho : o < inlines.length) :
    ∃ s, printRecord inlines o = some [s] ∧ Printed inlines o s := by
  obtain ⟨s, hs⟩ := csvLine_some inlines[o].line (hwf _ (List.getElem_mem ho))
  refine ⟨s, ?_, inlines[o], List.getElem?_eq_getElem ho, hs⟩
  simp only [printRecord, List.getElem?_eq_getElem ho, hs]

theorem printRecord_none (inlines : List inlineRecord) (o : Nat) (ho : inlines.length ≤ o) :
    printRecord inlines o = none := by
  simp only [printRecord, List.getElem?_eq_none ho]

theorem forEach_printRecord (inlines : List inlineRecord)
    (hwf : ∀ r ∈ inlines, 10 ≤ r.line.length) :
    ∀ xs : List Nat, (∀ o ∈ xs, o < inlines.length) →
      ∃ out, forEach xs (printRecord inlines) = some out ∧
        List.Forall₂ (Printed inlines) xs out := by
  intro xs
  induction xs with
  | nil => intro _; exact ⟨[], rfl, List.Forall₂.nil⟩
  | cons x xs ih =>
    intro h
    obtain ⟨s, hs, hp⟩ := printRecord_some inlines hwf x (h x (List.mem_cons_self _ _))
    obtain ⟨out, ho, hf⟩ := ih (fun o ho => h o (List.mem_cons_of_mem _ ho))
    exact ⟨s :: out, by simp only [forEach, hs, ho, List.singleton_append],
      List.Forall₂.cons hp hf⟩

theorem forEach_skip_constant (inlines : List inlineRecord)
    (hwf : ∀ r ∈ inlines, 10 ≤ r.line.length) :
    ∀ xs : List Nat, (∀ o ∈ xs, o ≤ inlines.length) →
      ∃ out, forEach xs
          (fun o => if o = inlines.length then some [] else printRecord inlines o) = some out ∧
        List.Forall₂ (Printed inlines) (xs.filter (fun o => o != inlines.length)) out := by
  intro xs
  induction xs with
  | nil => intro _; exact ⟨[], rfl, by simp⟩
  | cons x xs ih =>
    intro h
    obtain ⟨out, ho, hf⟩ := ih (fun o ho => h o (List.mem_cons_of_mem _ ho))
    by_cases hx : x = inlines.length
    · refine ⟨out, ?_, ?_⟩
      · simp only [forEach, hx, if_true, ho, List.nil_append]
      · simpa [hx] using hf
    · have hlt : x < inlines.length :=
        lt_of_le_of_ne (h x (List.mem_cons_self _ _)) hx
      obtain ⟨s, hs, hp⟩ := printRecord_some inlines hwf x hlt
      refine ⟨s :: out, ?_, ?_⟩
      · simp only [forEach, hx, if_false, hs, ho, List.singleton_append]
      · have hfil : List.filter (fun o => o != inlines.length) (x :: xs) =
            x :: List.filter (fun o => o != inlines.length) xs := by simp [hx]
        rw [hfil]
        exact List.Forall₂.cons hp hf

/-! ## Lemmas on the worst block -/

theorem extendWindow_eq (n : Nat) (so : List Nat) (l0 : Nat) (hl : l0 ≤ so.length) :
    ∀ is : List Nat, (∀ i ∈ is, i < l0) →
      extendWindow n so l0 is =
        some (if (∃ i ∈ is, so[so.length - l0 + i]? = some n) ∧ l0 < so.length
              then l0 + 1 else l0) := by
  intro is
  induction is with
  | nil => intro _; simp [extendWindow]
  | cons i is ih =>
    intro h
    have hi : so.length - l0 + i < so.length := by
      have := h i (List.mem_cons_self _ _)
      omega
    have ih2 := ih (fun j hj => h j (List.mem_cons_of_mem _ hj))
    simp only [extendWindow, List.getElem?_eq_getElem hi]
    by_cases hc : so[so.length - l0 + i] = n ∧ l0 < so.length
    · rw [if_pos hc, if_pos]
      exact ⟨⟨i, List.mem_cons_self _ _, by rw [List.getElem?_eq_getElem hi, hc.1]⟩, hc.2⟩
    · rw [if_neg hc, ih2]
      by_cases hlt : l0 < so.length
      · have hne : so[so.length - l0 + i] ≠ n := fun he => hc ⟨he, hlt⟩
        have : (∃ j ∈ i :: is, so[so.length - l0 + j]? = some n) ↔
            (∃ j ∈ is, so[so.length - l0 + j]? = some n) := by
          constructor
          · rintro ⟨j, hj, hjn⟩
            rcases List.mem_cons.mp hj with rfl | hj
            · rw [List.getElem?_eq_getElem hi] at hjn
              exact absurd (Option.some.inj hjn) hne
            · exact ⟨j, hj, hjn⟩
          · rintro ⟨j, hj, hjn⟩
            exact ⟨j, List.mem_cons_of_mem _ hj, hjn⟩
        simp only [this]
      · simp only [hlt, and_false, if_false]

theorem exists_range_iff_mem_drop (n : Nat) (so : List Nat) (l0 : Nat) (hl : l0 ≤ so.length) :
    (∃ i ∈ List.range l0, so[so.length - l0 + i]? = some n) ↔
      n ∈ so.drop (so.length - l0) := by
  rw [List.mem_iff_getElem?]
  simp only [List.getElem?_drop]
  constructor
  · rintro ⟨i, _, h⟩
    exact ⟨i, h⟩
  · rintro ⟨i, h⟩
    refine ⟨i, ?_, h⟩
    have hlt : so.length - l0 + i < so.length := by
      by_contra hge
      rw [List.getElem?_eq_none (not_lt.mp hge)] at h
      exact Option.noConfusion h
    exact List.mem_range.mpr (by omega)

theorem Min_toNat_le (worstN : Int) (len : Nat) : (Min worstN len).toNat ≤ len := by
  unfold Min
  split_ifs <;> omega

theorem worstWindow_le (n : Nat) (so : List Nat) (worstN : Int) :
    worstWindow n so worstN ≤ so.length := by
  have h := Min_toNat_le worstN so.length
  unfold worstWindow
  split_ifs with hc
  · omega
  · exact h

/-- The worst block is the skipping loop over the last `worstWindow` entries of
the sorted order. -/
theorem printWorst_eq (inlines : List inlineRecord) (so : List Nat) (worstN : Int) :
    printWorst inlines so worstN =
      forEach (so.drop (so.length - worstWindow inlines.length so worstN))
        (fun o => if o = inlines.length then some [] else printRecord inlines o) := by
  have hl0 := Min_toNat_le worstN so.length
  have hext := extendWindow_eq inlines.length so _ hl0 (List.range (Min worstN so.length).toNat)
    (fun i hi => List.mem_range.mp hi)
  have hext2 : extendWindow inlines.length so (Min worstN so.length).toNat
      (List.range (Min worstN so.length).toNat) = some (worstWindow inlines.length so worstN) := by
    rw [hext]
    unfold worstWindow
    exact congrArg some
      (if_congr (and_congr (exists_range_iff_mem_drop inlines.length so _ hl0) Iff.rfl) rfl rfl)
  have hw := worstWindow_le inlines.length so worstN
  simp only [printWorst, hext2]
  exact forEach_suffix so (worstWindow inlines.length so worstN) hw _

theorem perm_range_facts (n : Nat) (so : List Nat) (hperm : so.Perm (List.range (n + 1))) :
    so.length = n + 1 ∧ so.Nodup ∧ (∀ o ∈ so, o ≤ n) ∧ n ∈ so := by
  refine ⟨by simpa using hperm.length_eq, hperm.nodup_iff.mpr (List.nodup_range _), ?_, ?_⟩
  · intro o ho
    have := List.mem_range.mp (hperm.mem_iff.mp ho)
    omega
  · exact hperm.mem_iff.mpr (List.mem_range.mpr (Nat.lt_succ_self n))

theorem length_filter_ne (xs : List Nat) (n : Nat) (hnd : xs.Nodup) :
    (xs.filter (fun o => o != n)).length = if n ∈ xs then xs.length - 1 else xs.length := by
  split_ifs with h
  · rw [← List.Nodup.erase_eq_filter hnd n, List.length_erase_of_mem h]
  · have : xs.filter (fun o => o != n) = xs := by
      rw [List.filter_eq_self]
      intro a ha
      have : a ≠ n := fun he => h (he ▸ ha)
      simpa using this
    rw [this]

theorem mem_drop_of_le (so : List Nat) (a b x : Nat) (hab : a ≤ b) (hx : x ∈ so.drop b) :
    x ∈ so.drop a := by
  have h : so.drop b = (so.drop a).drop (b - a) := by
    rw [List.drop_drop]
    congr 1
    omega
  rw [h] at hx
  exact List.mem_of_mem_drop hx

theorem worstIndices_length (n : Nat) (so : List Nat) (worstN : Int)
    (hperm : so.Perm (List.range (n + 1))) (hw : 1 ≤ worstN) :
    ((worstIndices n so worstN).length : Int) = Min worstN n := by
  obtain ⟨hlen, hnd, _, hmem⟩ := perm_range_facts n so hperm
  have hl0 := Min_toNat_le worstN so.length
  have hndrop : ∀ d, (so.drop d).Nodup := fun d => List.Nodup.sublist (List.drop_sublist d so) hnd
  unfold worstIndices
  by_cases hin : n ∈ so.drop (so.length - (Min worstN so.length).toNat)
  · by_cases hlt : (Min worstN so.length).toNat < so.length
    · have hin2 : n ∈ so.drop (so.length - ((Min worstN so.length).toNat + 1)) :=
        mem_drop_of_le so _ _ n (by omega) hin
      have hW : worstWindow n so worstN = (Min worstN so.length).toNat + 1 := by
        unfold worstWindow
        rw [if_pos ⟨hin, hlt⟩]
      rw [hW, length_filter_ne _ _ (hndrop _), if_pos hin2, List.length_drop]
      unfold Min at hlt ⊢
      split_ifs at hlt ⊢ <;> omega
    · have hW : worstWindow n so worstN = (Min worstN so.length).toNat := by
        unfold worstWindow
        rw [if_neg (fun h => hlt h.2)]
      rw [hW, length_filter_ne _ _ (hndrop _), if_pos hin, List.length_drop]
      unfold Min at hlt hl0 ⊢
      split_ifs at hlt hl0 ⊢ <;> omega
  · have hW : worstWindow n so worstN = (Min worstN so.length).toNat := by
      unfold worstWindow
      rw [if_neg (fun h => hin h.1)]
    rw [hW, length_filter_ne _ _ (hndrop _), if_neg hin, List.length_drop]
    have hne : (Min worstN so.length).toNat ≠ so.length := by
      intro he
      apply hin
      rw [he, Nat.sub_self, List.drop_zero]
      exact hmem
    unfold Min at hne hl0 ⊢
    split_ifs at hne hl0 ⊢ <;> omega

theorem worstIndices_sublist (n : Nat) (so : List Nat) (worstN : Int) :
    (worstIndices n so worstN).Sublist so :=
  (List.filter_sublist _).trans (List.drop_sublist _ _)

theorem mem_worstIndices (n : Nat) (so : List Nat) (worstN : Int) (o : Nat) :
    o ∈ worstIndices n so worstN ↔
      o ∈ so.drop (so.length - worstWindow n so worstN) ∧ o ≠ n := by
  simp [worstIndices, List.mem_filter]

theorem pairwise_le_getLast (vstore : List ℚ) (idxs : List Nat)
    (hs : idxs.Pairwise (fun p q => coef vstore p ≤ coef vstore q)) (p : Nat)
    (hp : idxs.getLast? = some p) : ∀ r ∈ idxs, coef vstore r ≤ coef vstore p := by
  obtain ⟨ys, rfl⟩ := List.getLast?_eq_some_iff.mp hp
  intro r hr
  rcases List.mem_append.mp hr with h | h
  · exact (List.pairwise_append.mp hs).2.2 r h p (List.mem_singleton_self p)
  · rw [List.mem_singleton.mp h]

/-- Everything the worst block prints, for an arbitrary rearrangement `so` of
the indices `0 .. n`. -/
theorem printWorst_core (inlines : List inlineRecord) (so : List Nat) (worstN : Int)
    (hperm : so.Perm (List.range (inlines.length + 1)))
    (hwf : ∀ r ∈ inlines, 10 ≤ r.line.length) :
    ∃ out, printWorst inlines so worstN = some out ∧
      List.Forall₂ (Printed inlines) (worstIndices inlines.length so worstN) out := by
  obtain ⟨_, _, hle, _⟩ := perm_range_facts inlines.length so hperm
  rw [printWorst_eq]
  exact forEach_skip_constant inlines hwf _ (fun o ho => hle o (List.mem_of_mem_drop ho))

theorem sortedOrder_isSortedOrder (E : Extern) (hS : E.SortOk) (vstore : List ℚ) :
    IsSortedOrder vstore (sortedOrder E vstore) := by
  obtain ⟨hp, hs⟩ := hS (coefLess vstore) (List.range vstore.length)
  refine ⟨hp, ?_⟩
  have h := hs
    (by
      intro a b
      by_cases hab : coef vstore a ≤ coef vstore b
      · left; simpa [coefLess] using hab
      · right; simpa [coefLess] using le_of_lt (not_le.mp hab))
    (by
      intro a b c h1 h2
      simp only [coefLess, decide_eq_false_iff_not, not_lt] at h1 h2 ⊢
      exact le_trans h1 h2)
  exact h.imp (by intro a b hab; simpa [coefLess] using hab)

/-! ## Claims on the worst list -/

/-- C7 (amended): when the constant term lies in the requested worst window
(records carrying at least ten raw fields, as every record that `readInlines`
returns does), the worst block prints `min(worstN, n)` records, which is the requested
`worstN` whenever `worstN ≤ n` (the first loop then extends the window by one),
and every line printed is the line of a real record, never of the
constant-term index `n`. -/
theorem printWorst_constant_in_window (inlines : List inlineRecord) (so : List Nat)
    (worstN : Int)
    (hperm : so.Perm (List.range (inlines.length + 1)))
    (hwf : ∀ r ∈ inlines, 10 ≤ r.line.length)
    (hw : 1 ≤ worstN)
    (hin : inlines.length ∈ so.drop (so.length - (Min worstN so.length).toNat)) :
    ∃ idxs out, printWorst inlines so worstN = some out ∧
      List.Forall₂ (Printed inlines) idxs out ∧
      (out.length : Int) = Min worstN inlines.length ∧
      (worstN ≤ inlines.length →
        (out.length : Int) = worstN ∧
        extendWindow inlines.length so (Min worstN so.length).toNat
          (List.range (Min worstN so.length).toNat) = some (worstN.toNat + 1)) ∧
      ∀ o ∈ idxs, o < inlines.length := by
  obtain ⟨out, hout, hf⟩ := printWorst_core inlines so worstN hperm hwf
  obtain ⟨hlen, _, hle, _⟩ := perm_range_facts inlines.length so hperm
  have hcount := worstIndices_length inlines.length so worstN hperm hw
  rw [hf.length_eq] at hcount
  refine ⟨worstIndices inlines.length so worstN, out, hout, hf, hcount, ?_, ?_⟩
  · intro hsmall
    have hl0 := Min_toNat_le worstN so.length
    have hm : (Min worstN so.length).toNat = worstN.toNat := by
      unfold Min
      split_ifs <;> omega
    refine ⟨?_, ?_⟩
    · rw [hcount]
      unfold Min
      split_ifs <;> omega
    · have hext := extendWindow_eq inlines.length so _ hl0
        (List.range (Min worstN so.length).toNat) (fun i hi => List.mem_range.mp hi)
      rw [hext, if_pos, hm]
      exact ⟨(exists_range_iff_mem_drop inlines.length so _ hl0).mpr hin, by omega⟩
  · intro o ho
    obtain ⟨hmem, hne⟩ := (mem_worstIndices _ _ _ _).mp ho
    exact lt_of_le_of_ne (hle o (List.mem_of_mem_drop hmem)) hne

/-- One record with coefficient 0, constant term with coefficient 1, `-worst 2`:
the constant term is in the requested window and one record is printed, not two. -/
theorem printWorst_window_counterexample :
    sortedOrder refExtern [0, 1] = [0, 1] ∧
    1 ∈ (sortedOrder refExtern [0, 1]).drop
      ((sortedOrder refExtern [0, 1]).length -
        (Min 2 (sortedOrder refExtern [0, 1]).length).toNat) ∧
    (printWorst [sampleRecord "a"] (sortedOrder refExtern [0, 1]) 2).map List.length = some 1 := by
  decide

/-- Instance of the amended C7: four records with coefficients `[-3,-1,0,2]`,
constant term with coefficient 1, `-worst 2`. -/
theorem printWorst_constant_in_window_witness :
    ∃ idxs out, printWorst fourInlines [0, 1, 2, 4, 3] 2 = some out ∧
      List.Forall₂ (Printed fourInlines) idxs out ∧
      (out.length : Int) = Min 2 fourInlines.length ∧
      ((2 : Int) ≤ fourInlines.length →
        (out.length : Int) = 2 ∧
        extendWindow fourInlines.length [0, 1, 2, 4, 3]
          (Min 2 ([0, 1, 2, 4, 3] : List Nat).length).toNat
          (List.range (Min 2 ([0, 1, 2, 4, 3] : List Nat).length).toNat)
            = some ((2 : Int).toNat + 1)) ∧
      ∀ o ∈ idxs, o < fourInlines.length :=
  printWorst_constant_in_window fourInlines [0, 1, 2, 4, 3] 2 (by decide) (by decide)
    (by decide) (by decide)

/-- C8: for every sorted order of the `n + 1` coefficients and every
`worstN ≥ 1` (records carrying at least ten raw fields, as every record that
`readInlines` returns does), the worst block prints the lines of exactly `min(worstN, n)`
distinct real records, in non-decreasing coefficient order; the last one
printed has the largest coefficient of all real records, and no unprinted real
record has a coefficient greater than that of a printed one. -/
theorem printWorst_prints_worst_records (inlines : List inlineRecord) (vstore : List ℚ)
    (so : List Nat) (worstN : Int)
    (hlen : vstore.length = inlines.length + 1)
    (hso : IsSortedOrder vstore so)
    (hwf : ∀ r ∈ inlines, 10 ≤ r.line.length)
    (hw : 1 ≤ worstN) :
    ∃ idxs out, printWorst inlines so worstN = some out ∧
      List.Forall₂ (Printed inlines) idxs out ∧
      (idxs.length : Int) = Min worstN inlines.length ∧
      idxs.Nodup ∧
      (∀ o ∈ idxs, o < inlines.length) ∧
      idxs.Pairwise (fun p q => coef vstore p ≤ coef vstore q) ∧
      (∀ p, idxs.getLast? = some p →
        ∀ r, r < inlines.length → coef vstore r ≤ coef vstore p) ∧
      (∀ r, r < inlines.length → r ∉ idxs → ∀ p ∈ idxs, coef vstore r ≤ coef vstore p) := by
  obtain ⟨hperm, hsorted⟩ := hso
  rw [hlen] at hperm
  obtain ⟨out, hout, hf⟩ := printWorst_core inlines so worstN hperm hwf
  obtain ⟨_, hnd, hle, _⟩ := perm_range_facts inlines.length so hperm
  have hsub := worstIndices_sublist inlines.length so worstN
  have hpw : (worstIndices inlines.length so worstN).Pairwise
      (fun p q => coef vstore p ≤ coef vstore q) := hsorted.sublist hsub
  have hun : ∀ r, r < inlines.length → r ∉ worstIndices inlines.length so worstN →
      ∀ p ∈ worstIndices inlines.length so worstN, coef vstore r ≤ coef vstore p := by
    intro r hr hnot p hp
    have hrso : r ∈ so := hperm.mem_iff.mpr (List.mem_range.mpr (by omega))
    rw [← List.take_append_drop (so.length - worstWindow inlines.length so worstN) so] at hrso
    rcases List.mem_append.mp hrso with htake | hdrop
    · exact List.Sorted.rel_of_mem_take_of_mem_drop hsorted htake
        ((mem_worstIndices _ _ _ _).mp hp).1
    · exact absurd ((mem_worstIndices _ _ _ _).mpr ⟨hdrop, by omega⟩) hnot
  refine ⟨worstIndices inlines.length so worstN, out, hout, hf,
    worstIndices_length inlines.length so worstN hperm hw, hnd.sublist hsub, ?_, hpw, ?_, hun⟩
  · intro o ho
    obtain ⟨hmem, hne⟩ := (mem_worstIndices _ _ _ _).mp ho
    exact lt_of_le_of_ne (hle o (List.mem_of_mem_drop hmem)) hne
  · intro p hp r hr
    by_cases hmem : r ∈ worstIndices inlines.length so worstN
    · exact pairwise_le_getLast vstore _ hpw p hp r hmem
    · have hpm : p ∈ worstIndices inlines.length so worstN := by
        obtain ⟨ys, hys⟩ := List.getLast?_eq_some_iff.mp hp
        rw [hys]
        simp
      exact hun r hr hmem p hpm

/-- Instance of C8: four records with coefficients `[-3,-1,0,2]`, constant
term with coefficient 1, `-worst 2`. -/
theorem printWorst_prints_worst_records_witness :
    ∃ idxs out, printWorst fourInlines [0, 1, 2, 4, 3] 2 = some out ∧
      List.Forall₂ (Printed fourInlines) idxs out ∧
      (idxs.length : Int) = Min 2 fourInlines.length ∧
      idxs.Nodup ∧
      (∀ o ∈ idxs, o < fourInlines.length) ∧
      idxs.Pairwise (fun p q => coef [-3, -1, 0, 2, 1] p ≤ coef [-3, -1, 0, 2, 1] q) ∧
      (∀ p, idxs.getLast? = some p →
        ∀ r, r < fourInlines.length → coef [-3, -1, 0, 2, 1] r ≤ coef [-3, -1, 0, 2, 1] p) ∧
      (∀ r, r < fourInlines.length → r ∉ idxs →
        ∀ p ∈ idxs, coef [-3, -1, 0, 2, 1] r ≤ coef [-3, -1, 0, 2, 1] p) :=
  printWorst_prints_worst_records fourInlines [-3, -1, 0, 2, 1] [0, 1, 2, 4, 3] 2 (by decide)
    ⟨by decide, by decide⟩ (by decide) (by decide)

/-! ## The best list and the most-beneficial list -/

/-- The best block is the printing loop over the first `min(bestN, len)`
entries of the sorted order. -/
theorem printBest_eq (inlines : List inlineRecord) (so : List Nat) (bestN : Int) :
    printBest inlines so bestN =
      forEach (so.take (Min bestN so.length).toNat) (printRecord inlines) :=
  forEach_prefix so _ (Min_toNat_le bestN so.length) _

/-- The best block panics whenever the constant-term index is among the first
`min(bestN, len)` entries of the sorted order: `inlines[len(inlines)]` is out
of range. -/
theorem printBest_none_of_constant_in_window (inlines : List inlineRecord) (so : List Nat)
    (bestN : Int) (hin : inlines.length ∈ so.take (Min bestN so.length).toNat) :
    printBest inlines so bestN = none := by
  rw [printBest_eq]
  exact forEach_eq_none _ _ _ hin (printRecord_none inlines _ (Nat.le_refl _))

/-- The best block always panics when more records are requested than exist. -/
theorem printBest_none_of_large_request (inlines : List inlineRecord) (so : List Nat)
    (bestN : Int) (hperm : so.Perm (List.range (inlines.length + 1)))
    (hbig : (inlines.length : Int) < bestN) :
    printBest inlines so bestN = none := by
  obtain ⟨hlen, _, _, hmem⟩ := perm_range_facts inlines.length so hperm
  apply printBest_none_of_constant_in_window
  have hm : (Min bestN so.length).toNat = so.length := by
    unfold Min
    split_ifs <;> omega
  rw [hm, List.take_length]
  exact hmem

/-- When the constant term is not among the first `min(bestN, len)` entries of
the sorted order, the best block prints the lines of those entries, in order. -/
theorem printBest_of_constant_outside (inlines : List inlineRecord) (so : List Nat)
    (bestN : Int) (hperm : so.Perm (List.range (inlines.length + 1)))
    (hwf : ∀ r ∈ inlines, 10 ≤ r.line.length)
    (hout : inlines.length ∉ so.take (Min bestN so.length).toNat) :
    ∃ out, printBest inlines so bestN = some out ∧
      List.Forall₂ (Printed inlines) (so.take (Min bestN so.length).toNat) out := by
  obtain ⟨_, _, hle, _⟩ := perm_range_facts inlines.length so hperm
  rw [printBest_eq]
  apply forEach_printRecord inlines hwf
  intro o ho
  have h1 := hle o (List.mem_of_mem_take ho)
  have h2 : o ≠ inlines.length := fun he => hout (he ▸ ho)
  omega

/-- C9 (the code at failing inputs): with one record and `-best 2` the run
panics for both possible sorted orders; with four records of coefficients
`[-3,-1,0,2]` and `-best 2` it panics when the constant term has the smallest
coefficient (here -5), and prints records `a` then `b` when the constant term
ranks last (here 5). -/
theorem bestWorst_best_panics :
    bestWorst [sampleRecord "a"] [0, 1] 2 0 = none ∧
    bestWorst [sampleRecord "a"] [1, 0] 2 0 = none ∧
    sortedOrder refExtern [-3, -1, 0, 2, -5] = [4, 0, 1, 2, 3] ∧
    bestWorst fourInlines (sortedOrder refExtern [-3, -1, 0, 2, -5]) 2 0 = none ∧
    sortedOrder refExtern [-3, -1, 0, 2, 5] = [0, 1, 2, 3, 4] ∧
    bestWorst fourInlines (sortedOrder refExtern [-3, -1, 0, 2, 5]) 2 0 =
      some ["x.go:1:2: ,front_end,INLINE_SITE,pkg,a,1,2,lib,g,3\n",
            "x.go:1:2: ,front_end,INLINE_SITE,pkg,b,1,2,lib,g,3\n"] := by
  decide

/-- The most-beneficial loop panics whenever the constant-term index is among
the first `min(50, len)` entries of the sorted order. -/
theorem bestList_none_of_constant_in_window (inlines : List inlineRecord) (vstore : List ℚ)
    (so : List Nat) (hin : inlines.length ∈ so.take (Min 50 so.length).toNat) :
    bestList inlines vstore so = none := by
  obtain ⟨i, hi⟩ := List.mem_iff_getElem?.mp hin
  have hlt : i < (Min 50 so.length).toNat := by
    by_contra hge
    rw [List.getElem?_take, if_neg hge] at hi
    exact Option.noConfusion hi
  rw [List.getElem?_take, if_pos hlt] at hi
  apply forEach_eq_none _ _ i (List.mem_range.mpr hlt)
  simp only [hi, List.getElem?_eq_none (Nat.le_refl inlines.length)]

/-- With fewer than 50 records the most-beneficial loop visits every entry of
the sorted order, the constant term among them, and panics. -/
theorem bestList_none_of_few_records (inlines : List inlineRecord) (vstore : List ℚ)
    (so : List Nat) (hperm : so.Perm (List.range (inlines.length + 1)))
    (hfew : inlines.length < 50) :
    bestList inlines vstore so = none := by
  obtain ⟨hlen, _, _, hmem⟩ := perm_range_facts inlines.length so hperm
  apply bestList_none_of_constant_in_window
  have hm : (Min 50 so.length).toNat = so.length := by
    unfold Min
    split_ifs <;> omega
  rw [hm, List.take_length]
  exact hmem

/-- C10 (the code at a failing input): with one record the most-beneficial
loop panics for both possible sorted orders of the two coefficients. -/
theorem bestList_one_record_panics :
    bestList [sampleRecord "a"] [0, 1] [0, 1] = none ∧
    bestList [sampleRecord "a"] [1, 0] [1, 0] = none ∧
    sortedOrder refExtern [0, 1] = [0, 1] ∧
    sortedOrder refExtern [1, 0] = [1, 0] := by
  decide

/-! ## Claims on the threshold -/

theorem selectFrom_nonpos (E : Extern) (hR : E.DrawsInRange) (t : Int) (ht : t ≤ 0) :
    ∀ (k : Nat) (rng : E.Rng), selectFrom E t k rng = List.replicate k 0 := by
  intro k
  induction k with
  | zero => intro rng; rfl
  | succ k ih =>
    intro rng
    have h : ¬ (E.int31n rng 100).1 < t := by
      have := (hR rng).1
      omega
    simp [selectFrom, ih, h, List.replicate_succ]

theorem selectFrom_ge_hundred (E : Extern) (hR : E.DrawsInRange) (t : Int) (ht : 100 ≤ t) :
    ∀ (k : Nat) (rng : E.Rng), selectFrom E t k rng = List.replicate k 1 := by
  intro k
  induction k with
  | zero => intro rng; rfl
  | succ k ih =>
    intro rng
    have h : (E.int31n rng 100).1 < t := by
      have := (hR rng).2
      omega
    simp [selectFrom, ih, h, List.replicate_succ]

theorem selectFrom_mono (E : Extern) (t1 t2 : Int) (h : t1 ≤ t2) :
    ∀ (k : Nat) (rng : E.Rng) (i : Nat),
      (selectFrom E t1 k rng)[i]? = some 1 → (selectFrom E t2 k rng)[i]? = some 1 := by
  intro k
  induction k with
  | zero => intro rng i hi; simp [selectFrom] at hi
  | succ k ih =>
    intro rng i hi
    cases i with
    | zero =>
      simp only [selectFrom, List.getElem?_cons_zero, Option.some.injEq] at hi ⊢
      by_cases hd : (E.int31n rng 100).1 < t1
      · have hd2 : (E.int31n rng 100).1 < t2 := lt_of_lt_of_le hd h
        simp [hd2]
      · simp [hd] at hi
    | succ i =>
      simp only [selectFrom, List.getElem?_cons_succ] at hi ⊢
      exact ih _ i hi

/-- C19: for one seed and record count, raising the threshold keeps every
active site active (thresholds outside `[0,100]` included); with draws in
`[0,100)`, a threshold `≤ 0` activates no site and a threshold `≥ 100`
activates every site. -/
theorem fillRow_threshold_monotone (E : Extern) (hR : E.DrawsInRange) (seed : Int) (n : Nat)
    (t1 t2 : Int) (ht : t1 ≤ t2) (row : List ℚ) (avg : ℚ) (hlen : row.length = n + 1) :
    ∃ r1 r2, fillRow E seed t1 row avg = some r1 ∧ fillRow E seed t2 row avg = some r2 ∧
      (∀ i, i < n → r1[i]? = some 1 → r2[i]? = some 1) ∧
      (t1 ≤ 0 → ∀ i, i < n → r1[i]? = some 0) ∧
      (100 ≤ t2 → ∀ i, i < n → r2[i]? = some 1) := by
  have hs1 : (select E seed t1 n).length = n := length_selectFrom E _ _ _
  have hs2 : (select E seed t2 n).length = n := length_selectFrom E _ _ _
  refine ⟨_, _, fillRow_eq E seed t1 n row avg hlen, fillRow_eq E seed t2 n row avg hlen,
    ?_, ?_, ?_⟩
  · intro i hi h1
    rw [List.getElem?_append_left (by omega)] at h1 ⊢
    exact selectFrom_mono E t1 t2 ht n _ i h1
  · intro hle i hi
    rw [List.getElem?_append_left (by omega), select, selectFrom_nonpos E hR t1 hle]
    simp [List.getElem?_replicate, hi]
  · intro hge i hi
    rw [List.getElem?_append_left (by omega), select, selectFrom_ge_hundred E hR t2 hge]
    simp [List.getElem?_replicate, hi]

/-- Instance of C19 with thresholds -5 and 120 on a row for three sites. -/
theorem fillRow_threshold_monotone_witness :
    ∃ r1 r2, fillRow refExtern 7 (-5) [0, 0, 0, 0] 2 = some r1 ∧
      fillRow refExtern 7 120 [0, 0, 0, 0] 2 = some r2 ∧
      (∀ i, i < 3 → r1[i]? = some 1 → r2[i]? = some 1) ∧
      ((-5 : Int) ≤ 0 → ∀ i, i < 3 → r1[i]? = some 0) ∧
      ((100 : Int) ≤ 120 → ∀ i, i < 3 → r2[i]? = some 1) :=
  fillRow_threshold_monotone refExtern refExtern_drawsInRange 7 3 (-5) 120 (by decide)
    [0, 0, 0, 0] 2 rfl

/-! ## Claims on the percentile table -/

theorem forEach_singletons {α : Type} (is : List Nat) (body : Nat → Option (List α))
    (f : Nat → α) (h : ∀ i ∈ is, body i = some [f i]) : forEach is body = some (is.map f) := by
  induction is with
  | nil => rfl
  | cons i is ih =>
    have hi := h i (List.mem_cons_self _ _)
    have ht := ih (fun j hj => h j (List.mem_cons_of_mem _ hj))
    simp only [forEach, hi, ht, List.map_cons, List.singleton_append]

theorem percentile_quotient_le (i len : Nat) (hi : i ≤ 10) : (i * len + 5) / 10 ≤ len := by
  have h1 : i * len + 5 ≤ 10 * len + 5 :=
    Nat.add_le_add_right (Nat.mul_le_mul_right len hi) 5
  have h2 := Nat.div_le_div_right (c := 10) h1
  have h3 : (10 * len + 5) / 10 = len := by omega
  omega

theorem percentile_quotient_mono (i j len : Nat) (hij : i ≤ j) :
    (i * len + 5) / 10 ≤ (j * len + 5) / 10 :=
  Nat.div_le_div_right (Nat.add_le_add_right (Nat.mul_le_mul_right len hij) 5)

theorem percentileIndex_eq_min (i len : Nat) (hi : i ≤ 10) (hlen : 1 ≤ len) :
    percentileIndex i len = min ((((i * len + 5) / 10 : Nat) : Int)) ((len : Int) - 1) := by
  have hq := percentile_quotient_le i len hi
  unfold percentileIndex
  generalize (i * len + 5) / 10 = q at hq ⊢
  split_ifs with h
  · subst h
    rw [min_eq_right (by omega)]
  · rw [min_eq_left (by omega)]

theorem percentileIndex_bounds (i len : Nat) (hi : i ≤ 10) (hlen : 1 ≤ len) :
    0 ≤ percentileIndex i len ∧ percentileIndex i len ≤ (len : Int) - 1 := by
  have hq := percentile_quotient_le i len hi
  unfold percentileIndex
  generalize (i * len + 5) / 10 = q at hq ⊢
  split_ifs with h <;> omega

theorem percentileIndex_mono (i j len : Nat) (hij : i ≤ j) (hj : j ≤ 10) :
    percentileIndex i len ≤ percentileIndex j len := by
  have h1 := percentile_quotient_le i len (le_trans hij hj)
  have h2 := percentile_quotient_le j len hj
  have h3 := percentile_quotient_mono i j len hij
  unfold percentileIndex
  generalize (i * len + 5) / 10 = q1 at h1 h3 ⊢
  generalize (j * len + 5) / 10 = q2 at h2 h3 ⊢
  split_ifs <;> omega

theorem coef_of_lt (vstore : List ℚ) (o : Nat) (ho : o < vstore.length) :
    vstore[o]? = some (coef vstore o) := by
  simp [coef, List.getD_eq_getElem?_getD, List.getElem?_eq_getElem ho]

/-- Closed form of the percentile table for a rearrangement of the indices of a
non-empty coefficient vector. -/
theorem percentileTable_eq (vstore : List ℚ) (so : List Nat)
    (hperm : so.Perm (List.range vstore.length)) (hne : 1 ≤ vstore.length) :
    percentileTable vstore so = some ((List.range 11).map (fun i =>
      Line.percentile (i * 10) (percentileIndex i so.length).toNat
        (coef vstore (so.getD (percentileIndex i so.length).toNat 0)))) := by
  have hlen : so.length = vstore.length := by simpa using hperm.length_eq
  apply forEach_singletons
  intro i hi
  have hi2 : i ≤ 10 := by
    have := List.mem_range.mp hi
    omega
  obtain ⟨hb1, hb2⟩ := percentileIndex_bounds i so.length hi2 (by omega)
  have hidx : (percentileIndex i so.length).toNat < so.length := by omega
  have ho : so[(percentileIndex i so.length).toNat] < vstore.length :=
    List.mem_range.mp (hperm.mem_iff.mp (List.getElem_mem hidx))
  have hneg : ¬ percentileIndex i so.length < 0 := by omega
  simp only [hneg, if_false, List.getElem?_eq_getElem hidx, coef_of_lt vstore _ ho,
    List.getD_eq_getElem?_getD, Option.getD_some]

theorem sortedOrder_first_le (vstore : List ℚ) (so : List Nat) (hso : IsSortedOrder vstore so) :
    ∀ x ∈ vstore, coef vstore (so.getD 0 0) ≤ x ∧ x ≤ coef vstore (so.getD (so.length - 1) 0) := by
  obtain ⟨hperm, hsorted⟩ := hso
  have hlen : so.length = vstore.length := by simpa using hperm.length_eq
  intro x hx
  obtain ⟨j, hj, rfl⟩ := List.getElem_of_mem hx
  have hjso : j ∈ so := hperm.mem_iff.mpr (List.mem_range.mpr hj)
  obtain ⟨m, hm, hmj⟩ := List.getElem_of_mem hjso
  haveI : IsRefl Nat (fun p q => coef vstore p ≤ coef vstore q) := ⟨fun _ => le_refl _⟩
  have h0 : 0 < so.length := by omega
  have hl : so.length - 1 < so.length := by omega
  have hcj : coef vstore j = vstore[j] := by
    simp [coef, List.getD_eq_getElem?_getD, List.getElem?_eq_getElem hj]
  have hfirst := List.Sorted.rel_get_of_le hsorted (a := ⟨0, h0⟩) (b := ⟨m, hm⟩) (Nat.zero_le _)
  have hlast := List.Sorted.rel_get_of_le hsorted (a := ⟨m, hm⟩) (b := ⟨so.length - 1, hl⟩)
    (by show m ≤ so.length - 1; omega)
  simp only [List.get_eq_getElem, hmj, hcj] at hfirst hlast
  simp only [List.getD_eq_getElem?_getD, List.getElem?_eq_getElem h0,
    List.getElem?_eq_getElem hl, Option.getD_some]
  exact ⟨hfirst, hlast⟩

/-- C11 (amended): for 11 coefficients the 50th-percentile row (`i = 5`) of the
table selects index 6 of the sorted order, which is `(5*11 + 5) / 10`, one past
the middle index 5. -/
theorem percentile_fifty_of_eleven (vstore : List ℚ) (so : List Nat)
    (hso : IsSortedOrder vstore so) (hlen : vstore.length = 11) :
    percentileIndex 5 so.length = 6 ∧
    ∃ out o, percentileTable vstore so = some out ∧ so[6]? = some o ∧
      out[5]? = some (Line.percentile 50 6 (coef vstore o)) := by
  have hsl : so.length = 11 := by rw [← hlen]; simpa using hso.1.length_eq
  have h6 : percentileIndex 5 11 = 6 := by decide
  have hlt : 6 < so.length := by omega
  refine ⟨by rw [hsl, h6], _, so[6], percentileTable_eq vstore so hso.1 (by omega),
    List.getElem?_eq_getElem hlt, ?_⟩
  rw [hsl, List.getElem?_map, List.getElem?_range (by decide), Option.map_some', h6]
  simp [List.getD_eq_getElem?_getD, List.getElem?_eq_getElem hlt]

/-- Eleven coefficients `0, 1, ..., 10` in sorted order: the 50th-percentile
row shows index 6 and the value 6, not index 5. -/
theorem percentile_fifty_counterexample :
    percentileIndex 5 11 = 6 ∧
    (percentileTable [0, 1, 2, 3, 4, 5, 6, 7, 8, 9, 10] (List.range 11)).map (fun out => out[5]?)
      = some (some (Line.percentile 50 6 6)) := by
  decide

/-- Instance of the amended C11 on the coefficients `0, 1, ..., 10`. -/
theorem percentile_fifty_of_eleven_witness :
    percentileIndex 5 (List.range 11).length = 6 ∧
    ∃ out o, percentileTable [0, 1, 2, 3, 4, 5, 6, 7, 8, 9, 10] (List.range 11) = some out ∧
      (List.range 11)[6]? = some o ∧
      out[5]? = some (Line.percentile 50 6 (coef [0, 1, 2, 3, 4, 5, 6, 7, 8, 9, 10] o)) :=
  percentile_fifty_of_eleven [0, 1, 2, 3, 4, 5, 6, 7, 8, 9, 10] (List.range 11)
    ⟨by decide, by decide⟩ (by decide)

/-- C12: for `total ≥ 1` coefficients and `i` in `0..10` the percentile index
is `min((i*total + 5)/10, total - 1)`, a valid index, non-decreasing in `i`,
`0` for `i = 0` and `total - 1` for `i = 10`; the table is printed without a
panic, row `i` showing the coefficient at that index of the sorted order, so
row 0 shows the minimum and row 10 the maximum coefficient. -/
theorem percentile_index_valid (vstore : List ℚ) (so : List Nat)
    (hso : IsSortedOrder vstore so) (hne : 1 ≤ vstore.length) :
    (∀ i, i ≤ 10 →
      percentileIndex i so.length =
        min ((((i * so.length + 5) / 10 : Nat) : Int)) ((so.length : Int) - 1) ∧
      0 ≤ percentileIndex i so.length ∧ percentileIndex i so.length ≤ (so.length : Int) - 1) ∧
    (∀ i j, i ≤ j → j ≤ 10 → percentileIndex i so.length ≤ percentileIndex j so.length) ∧
    percentileIndex 0 so.length = 0 ∧
    percentileIndex 10 so.length = (so.length : Int) - 1 ∧
    (∃ out, percentileTable vstore so = some out ∧ out.length = 11 ∧
      ∀ i, i ≤ 10 → out[i]? = some (Line.percentile (i * 10)
        (percentileIndex i so.length).toNat
        (coef vstore (so.getD (percentileIndex i so.length).toNat 0)))) ∧
    (∀ x ∈ vstore, coef vstore (so.getD (percentileIndex 0 so.length).toNat 0) ≤ x ∧
      x ≤ coef vstore (so.getD (percentileIndex 10 so.length).toNat 0)) := by
  have hlen : so.length = vstore.length := by simpa using hso.1.length_eq
  have hpos : 1 ≤ so.length := by omega
  have h0 : percentileIndex 0 so.length = 0 := by
    unfold percentileIndex
    have : (0 * so.length + 5) / 10 = 0 := by omega
    rw [this]
    split_ifs <;> omega
  have h10 : percentileIndex 10 so.length = (so.length : Int) - 1 := by
    unfold percentileIndex
    have : (10 * so.length + 5) / 10 = so.length := by omega
    rw [this]
    simp
  refine ⟨?_, ?_, h0, h10, ?_, ?_⟩
  · intro i hi
    exact ⟨percentileIndex_eq_min i so.length hi hpos, percentileIndex_bounds i so.length hi hpos⟩
  · intro i j hij hj
    exact percentileIndex_mono i j so.length hij hj
  · refine ⟨_, percentileTable_eq vstore so hso.1 hne, by simp, ?_⟩
    intro i hi
    rw [List.getElem?_map, List.getElem?_range (by omega), Option.map_some']
  · intro x hx
    have h := sortedOrder_first_le vstore so hso x hx
    have e10 : ((so.length : Int) - 1).toNat = so.length - 1 := by omega
    rw [h0, h10, e10]
    simpa using h

/-- Instance of C12 on five coefficients. -/
theorem percentile_index_valid_witness :
    (∀ i, i ≤ 10 →
      percentileIndex i ([0, 1, 2, 4, 3] : List Nat).length =
        min ((((i * ([0, 1, 2, 4, 3] : List Nat).length + 5) / 10 : Nat) : Int))
          ((([0, 1, 2, 4, 3] : List Nat).length : Int) - 1) ∧
      0 ≤ percentileIndex i ([0, 1, 2, 4, 3] : List Nat).length ∧
      percentileIndex i ([0, 1, 2, 4, 3] : List Nat).length ≤
        (([0, 1, 2, 4, 3] : List Nat).length : Int) - 1) ∧
    (∀ i j, i ≤ j → j ≤ 10 →
      percentileIndex i ([0, 1, 2, 4, 3] : List Nat).length ≤
        percentileIndex j ([0, 1, 2, 4, 3] : List Nat).length) ∧
    percentileIndex 0 ([0, 1, 2, 4, 3] : List Nat).length = 0 ∧
    percentileIndex 10 ([0, 1, 2, 4, 3] : List Nat).length =
      (([0, 1, 2, 4, 3] : List Nat).length : Int) - 1 ∧
    (∃ out, percentileTable [-3, -1, 0, 2, 1] [0, 1, 2, 4, 3] = some out ∧ out.length = 11 ∧
      ∀ i, i ≤ 10 → out[i]? = some (Line.percentile (i * 10)
        (percentileIndex i ([0, 1, 2, 4, 3] : List Nat).length).toNat
        (coef [-3, -1, 0, 2, 1] (([0, 1, 2, 4, 3] : List Nat).getD
          (percentileIndex i ([0, 1, 2, 4, 3] : List Nat).length).toNat 0)))) ∧
    (∀ x ∈ ([-3, -1, 0, 2, 1] : List ℚ),
      coef [-3, -1, 0, 2, 1] (([0, 1, 2, 4, 3] : List Nat).getD
        (percentileIndex 0 ([0, 1, 2, 4, 3] : List Nat).length).toNat 0) ≤ x ∧
      x ≤ coef [-3, -1, 0, 2, 1] (([0, 1, 2, 4, 3] : List Nat).getD
        (percentileIndex 10 ([0, 1, 2, 4, 3] : List Nat).length).toNat 0)) :=
  percentile_index_valid [-3, -1, 0, 2, 1] [0, 1, 2, 4, 3] ⟨by decide, by decide⟩ (by decide)

/-! ## Claims on the final scan -/

theorem map_coef_range (vstore : List ℚ) :
    (List.range vstore.length).map (coef vstore) = vstore := by
  apply List.ext_getElem?
  intro i
  by_cases hi : i < vstore.length
  · rw [List.getElem?_map, List.getElem?_range hi, Option.map_some', coef_of_lt vstore i hi]
  · rw [List.getElem?_eq_none (by simpa using hi), List.getElem?_eq_none (by simpa using hi)]

theorem map_coef_perm (vstore : List ℚ) (so : List Nat)
    (hperm : so.Perm (List.range vstore.length)) : (so.map (coef vstore)).Perm vstore := by
  have h := hperm.map (coef vstore)
  rwa [map_coef_range] at h

/-- The scan over an ascending list of valid indices adds to `count` the number
of negative coefficients in the list and to `benefit` their sum, whatever the
loop index and the trace variables are. -/
theorem scanLoop_sorted (vstore : List ℚ) :
    ∀ (is : List Nat) (k : Nat) (st : Scan),
      (∀ i ∈ is, i < vstore.length) →
      is.Pairwise (fun p q => coef vstore p ≤ coef vstore q) →
      ∃ st1, scanLoop vstore is k st = some st1 ∧
        st1.count = st.count + ((is.map (coef vstore)).filter (fun v => decide (v < 0))).length ∧
        st1.benefit =
          st.benefit + ((is.map (coef vstore)).filter (fun v => decide (v < 0))).sum := by
  intro is
  induction is with
  | nil => intro k st _ _; exact ⟨st, rfl, by simp, by simp⟩
  | cons i is ih =>
    intro k st hval hsorted
    have hi : i < vstore.length := hval i (List.mem_cons_self _ _)
    have hval2 : ∀ j ∈ is, j < vstore.length := fun j hj => hval j (List.mem_cons_of_mem _ hj)
    obtain ⟨hhead, htail⟩ := List.pairwise_cons.mp hsorted
    simp only [scanLoop, coef_of_lt vstore i hi]
    by_cases hv : coef vstore i ≥ 0
    · have hnil : ((i :: is).map (coef vstore)).filter (fun v => decide (v < 0)) = [] := by
        rw [List.filter_eq_nil_iff]
        intro x hx
        obtain ⟨j, hj, rfl⟩ := List.mem_map.mp hx
        have hge : 0 ≤ coef vstore j := by
          rcases List.mem_cons.mp hj with rfl | hj2
          · exact hv
          · exact le_trans hv (hhead j hj2)
        simpa using hge
      rw [if_pos hv, hnil]
      exact ⟨st, rfl, by simp, by simp⟩
    · rw [if_neg hv]
      have hneg : coef vstore i < 0 := not_le.mp hv
      have hfil : ((i :: is).map (coef vstore)).filter (fun v => decide (v < 0)) =
          coef vstore i :: (is.map (coef vstore)).filter (fun v => decide (v < 0)) := by
        simp [hneg]
      rw [hfil]
      by_cases hp : st.benefit + coef vstore i ≤ st.printAtBenefit
      · rw [if_pos hp]
        obtain ⟨st1, h1, h2, h3⟩ := ih (k + 1)
          { count := st.count + 1, benefit := st.benefit + coef vstore i,
            printAtBenefit := st.printAtBenefit - 1,
            trace := if k < 50 then
              st.trace ++ [Line.trace (st.count + 1) (st.benefit + coef vstore i) (coef vstore i)]
              else st.trace } hval2 htail
        dsimp only at h2 h3
        refine ⟨st1, h1, ?_, ?_⟩
        · rw [h2, List.length_cons]; omega
        · rw [h3, List.sum_cons]; ring
      · rw [if_neg hp]
        obtain ⟨st1, h1, h2, h3⟩ := ih (k + 1)
          { count := st.count + 1, benefit := st.benefit + coef vstore i,
            printAtBenefit := st.printAtBenefit, trace := st.trace } hval2 htail
        dsimp only at h2 h3
        refine ⟨st1, h1, ?_, ?_⟩
        · rw [h2, List.length_cons]; omega
        · rw [h3, List.sum_cons]; ring

/-- C13: for every coefficient vector and every sorted order of it, the final
scan ends with `count` equal to the number of strictly negative coefficients of
the whole vector and `benefit` equal to their sum, although it stops at the
first non-negative coefficient; this holds from every value of the trace
variables (`printAtBenefit`, the loop index `k`, the lines traced so far), so
the trace logic does not affect the totals, and the closing line reports them. -/
theorem finalScan_counts_negatives (vstore : List ℚ) (so : List Nat)
    (hso : IsSortedOrder vstore so) :
    (∀ (k : Nat) (printAtBenefit : ℚ) (trace : List Line),
      ∃ st, scanLoop vstore so k
          { count := 0, benefit := 0, printAtBenefit := printAtBenefit, trace := trace }
            = some st ∧
        st.count = (vstore.filter (fun v => decide (v < 0))).length ∧
        st.benefit = (vstore.filter (fun v => decide (v < 0))).sum) ∧
    ∃ traced, finalScan vstore so = some (traced ++
      [Line.total (vstore.filter (fun v => decide (v < 0))).length
        (vstore.filter (fun v => decide (v < 0))).sum]) := by
  obtain ⟨hperm, hsorted⟩ := hso
  have hval : ∀ i ∈ so, i < vstore.length := fun i hi => List.mem_range.mp (hperm.mem_iff.mp hi)
  have hfp := (map_coef_perm vstore so hperm).filter (fun v => decide (v < 0))
  have hmain : ∀ (k : Nat) (printAtBenefit : ℚ) (trace : List Line),
      ∃ st, scanLoop vstore so k
          { count := 0, benefit := 0, printAtBenefit := printAtBenefit, trace := trace }
            = some st ∧
        st.count = (vstore.filter (fun v => decide (v < 0))).length ∧
        st.benefit = (vstore.filter (fun v => decide (v < 0))).sum := by
    intro k pab tr
    obtain ⟨st, h1, h2, h3⟩ := scanLoop_sorted vstore so k
      { count := 0, benefit := 0, printAtBenefit := pab, trace := tr } hval hsorted
    refine ⟨st, h1, ?_, ?_⟩
    · rw [h2, hfp.length_eq]; simp
    · rw [h3, hfp.sum_eq]; simp
  refine ⟨hmain, ?_⟩
  obtain ⟨st, h1, h2, h3⟩ := hmain 0 (-1) []
  exact ⟨st.trace, by simp only [finalScan, h1, h2, h3]⟩

/-- Instance of C13: coefficients `[-3,-1,0,2,-5]` with sorted order
`[4,0,1,2,3]`, three negative coefficients with sum -9. -/
theorem finalScan_counts_negatives_witness :
    (∀ (k : Nat) (printAtBenefit : ℚ) (trace : List Line),
      ∃ st, scanLoop [-3, -1, 0, 2, -5] [4, 0, 1, 2, 3] k
          { count := 0, benefit := 0, printAtBenefit := printAtBenefit, trace := trace }
            = some st ∧
        st.count = (([-3, -1, 0, 2, -5] : List ℚ).filter (fun v => decide (v < 0))).length ∧
        st.benefit = (([-3, -1, 0, 2, -5] : List ℚ).filter (fun v => decide (v < 0))).sum) ∧
    ∃ traced, finalScan [-3, -1, 0, 2, -5] [4, 0, 1, 2, 3] = some (traced ++
      [Line.total (([-3, -1, 0, 2, -5] : List ℚ).filter (fun v => decide (v < 0))).length
        (([-3, -1, 0, 2, -5] : List ℚ).filter (fun v => decide (v < 0))).sum]) :=
  finalScan_counts_negatives [-3, -1, 0, 2, -5] [4, 0, 1, 2, 3] ⟨by decide, by decide⟩

/-! ## Claims on the pairing of rows and targets -/

theorem range_map_getElem? {α : Type} (l : List α) :
    (List.range l.length).map (fun j => l[j]?) = l.map some := by
  apply List.ext_getElem?
  intro i
  by_cases hi : i < l.length
  · simp [List.getElem?_range hi, List.getElem?_eq_getElem hi]
  · have h1 : l.length ≤ i := not_lt.mp hi
    rw [List.getElem?_eq_none (by simpa using h1), List.getElem?_eq_none (by simpa using h1)]

theorem range_map_getD (p : List Nat) : (List.range p.length).map (fun j => p.getD j 0) = p := by
  apply List.ext_getElem?
  intro i
  by_cases hi : i < p.length
  · simp [List.getElem?_range hi, List.getElem?_eq_getElem hi, List.getD_eq_getElem?_getD]
  · have h1 : p.length ≤ i := not_lt.mp hi
    rw [List.getElem?_eq_none (by simpa using h1), List.getElem?_eq_none h1]

/-- A rearrangement of a list is given by a permutation of its indices. -/
theorem perm_index_list {α : Type} {l₁ l₂ : List α} (h : l₁.Perm l₂) :
    ∃ p : List Nat, p.Perm (List.range l₂.length) ∧ l₁.map some = p.map (fun j => l₂[j]?) := by
  induction h with
  | nil => exact ⟨[], by simp, by simp⟩
  | cons x _ ih =>
    obtain ⟨p, hp, he⟩ := ih
    refine ⟨0 :: p.map Nat.succ, ?_, ?_⟩
    · rw [List.length_cons, List.range_succ_eq_map]
      exact (hp.map Nat.succ).cons 0
    · simp [List.map_map, Function.comp_def, he]
  | swap x y l =>
    refine ⟨1 :: 0 :: (List.range l.length).map (fun j => j + 2), ?_, ?_⟩
    · have hr : List.range (l.length + 2) =
          0 :: 1 :: (List.range l.length).map (fun j => j + 2) := by
        rw [List.range_succ_eq_map, List.range_succ_eq_map]
        simp [List.map_map, Function.comp_def]
      rw [List.length_cons, List.length_cons, hr]
      exact List.Perm.swap 0 1 _
    · have hl := range_map_getElem? l
      simp [List.map_map, Function.comp_def, hl]
  | trans h12 h23 ih12 ih23 =>
    rename_i l₁ l₂ l₃
    obtain ⟨p12, hp12, he12⟩ := ih12
    obtain ⟨p23, hp23, he23⟩ := ih23
    have hlen23 : p23.length = l₃.length := by simpa using hp23.length_eq
    have hlen2 : l₂.length = l₃.length := h23.length_eq
    refine ⟨p12.map (fun j => p23.getD j 0), ?_, ?_⟩
    · have h1 := hp12.map (fun j => p23.getD j 0)
      rw [hlen2, ← hlen23, range_map_getD] at h1
      exact h1.trans hp23
    · rw [he12, List.map_map]
      apply List.map_congr_left
      intro j hj
      have hj2 : j < l₂.length := List.mem_range.mp (hp12.mem_iff.mp hj)
      have hj3 : j < p23.length := by omega
      have hget := congrArg (fun l => l[j]?) he23
      simp only [List.getElem?_map, List.getElem?_eq_getElem hj2, List.getElem?_eq_getElem hj3,
        Option.map_some', Option.some.injEq] at hget
      simp only [Function.comp_apply, List.getD_eq_getElem?_getD, List.getElem?_eq_getElem hj3,
        Option.getD_some, List.getElem?_eq_getElem hj2]
      exact hget

/-- C18: the rows and targets handed to the solver are the input trials taken
as pairs and rearranged: there is a permutation `p` of the trial indices such
that for every `i`, row `i` is the `fillRow` result for the seed and threshold
of input trial `p[i]` and `b[i]` is the observed time of that same trial. -/
theorem solver_rows_are_permuted_trials (E : Extern) (hS : E.SortOk)
    (inlines : List inlineRecord) (input : List benchmarkTrial) (hne : input ≠ []) :
    ∃ (s : System) (p : List Nat), buildSystem E inlines input = some s ∧
      p.Perm (List.range input.length) ∧
      s.a.length = input.length ∧ s.b.length = input.length ∧
      ∀ i, i < input.length → ∃ (j : Nat) (t : benchmarkTrial),
        p[i]? = some j ∧ input[j]? = some t ∧
        s.a[i]? =
          fillRow E t.seed t.threshold (List.replicate (1 + inlines.length) 0) s.avg ∧
        s.b[i]? = some t.time := by
  obtain ⟨hp, _⟩ := sortSlice_trials E hS input
  obtain ⟨p, hpp, hpe⟩ := perm_index_list hp
  have hlenp : p.length = input.length := by simpa using hpp.length_eq
  refine ⟨_, p, buildSystem_eq E inlines input hp.length_eq hne, hpp,
    by simp [hp.length_eq], by simp [hp.length_eq], ?_⟩
  intro i hi
  have hiT : i < (E.sortSlice timeLess input).length := by rw [hp.length_eq]; exact hi
  have hip : i < p.length := by omega
  have hget := congrArg (fun l => l[i]?) hpe
  simp only [List.getElem?_map, List.getElem?_eq_getElem hiT, List.getElem?_eq_getElem hip,
    Option.map_some', Option.some.injEq] at hget
  refine ⟨p[i], (E.sortSlice timeLess input)[i], List.getElem?_eq_getElem hip, hget.symm, ?_, ?_⟩
  · rw [fillRow_eq E _ _ inlines.length _ _ (by simp [Nat.add_comm])]
    simp [List.getElem?_eq_getElem hiT, rowOf]
  · simp [List.getElem?_eq_getElem hiT]

/-- Instance of C18 on the sample records and trials. -/
theorem solver_rows_are_permuted_trials_witness :
    ∃ (s : System) (p : List Nat), buildSystem refExtern sampleInlines sampleTrials = some s ∧
      p.Perm (List.range sampleTrials.length) ∧
      s.a.length = sampleTrials.length ∧ s.b.length = sampleTrials.length ∧
      ∀ i, i < sampleTrials.length → ∃ (j : Nat) (t : benchmarkTrial),
        p[i]? = some j ∧ sampleTrials[j]? = some t ∧
        s.a[i]? =
          fillRow refExtern t.seed t.threshold (List.replicate (1 + sampleInlines.length) 0)
            s.avg ∧
        s.b[i]? = some t.time :=
  solver_rows_are_permuted_trials refExtern refExtern_sortOk sampleInlines sampleTrials
    (by decide)

/-! ## Claims on the pipeline and on mode dispatch -/

/-- The regression output depends on the solver only through the entries it
leaves in `vstore`: the error it returns is never looked at. -/
theorem regression_ignores_solve_error (E : Extern) (S1 S2 : Solver)
    (hsame : ∀ a b, (S1.solveVec a b).1 = (S2.solveVec a b).1)
    (inlines : List inlineRecord) (input : List benchmarkTrial) (bestN worstN : Int) :
    regression E S1 inlines input bestN worstN = regression E S2 inlines input bestN worstN := by
  unfold regression
  cases buildSystem E inlines input with
  | none => rfl
  | some s => simp only [hsame]

/-- C14 (the code at a failing input): one record and two trials of threshold
0 give the singular matrix `[[0,3],[0,3]]`; the solver reports failure, and
`main` with `-worst 1` still ends normally with the header and the line of the
record, exactly as with a solver that reports success. -/
theorem main_continues_after_solve_error :
    (buildSystem refExtern [sampleRecord "a"] flatTrials).map (fun s => (s.a, s.b)) =
      some ([[0, 3], [0, 3]], [2, 4]) ∧
    (failingSolver.solveVec [[0, 3], [0, 3]] [2, 4]).2 = true ∧
    main refExtern failingSolver sampleFiles
        { bestN := 0, worstN := 1, seed := 0, threshold := 67 } ["inl.csv", "flat.csv"] =
      { inlinesRead := some "inl.csv", benchmarksRead := some "flat.csv",
        exit := Exit.report
          [Line.header 1 2 2 3 3 4,
           Line.text "x.go:1:2: ,front_end,INLINE_SITE,pkg,a,1,2,lib,g,3\n"] } ∧
    main refExtern failingSolver sampleFiles
        { bestN := 0, worstN := 1, seed := 0, threshold := 67 } ["inl.csv", "flat.csv"] =
      main refExtern succeedingSolver sampleFiles
        { bestN := 0, worstN := 1, seed := 0, threshold := 67 } ["inl.csv", "flat.csv"] := by
  refine ⟨?_, rfl, ?_, ?_⟩
  · decide!
  · decide!
  · decide!

/-- C15: on an empty trial list the sorted slice is empty, `trials[0]` panics,
so no system (no matrix, no target vector) is built and the regression ends in
a panic without output, for every record list, solver and flag values. -/
theorem regression_empty_trials_panics (E : Extern) (hS : E.SortOk) (S : Solver)
    (inlines : List inlineRecord) (bestN worstN : Int) :
    E.sortSlice timeLess [] = [] ∧
    buildSystem E inlines [] = none ∧
    regression E S inlines [] bestN worstN = none := by
  have hnil : E.sortSlice timeLess [] = [] := (hS timeLess []).1.eq_nil
  have hb : buildSystem E inlines [] = none := by
    simp [buildSystem, hnil]
  exact ⟨hnil, hb, by simp [regression, hb]⟩

/-- Instance of C15 on the sample records. -/
theorem regression_empty_trials_panics_witness :
    refExtern.sortSlice timeLess [] = [] ∧
    buildSystem refExtern sampleInlines [] = none ∧
    regression refExtern succeedingSolver sampleInlines [] 0 0 = none :=
  regression_empty_trials_panics refExtern refExtern_sortOk succeedingSolver sampleInlines 0 0

/-- With a positive seed, one file argument and no best/worst count, `main`
runs subset generation and does not call `readBenchmarks`. -/
theorem main_positive_seed (E : Extern) (S : Solver) (files : Files) (flags : Flags)
    (file : String) (inlines : List inlineRecord)
    (hseed : 0 < flags.seed) (hbest : flags.bestN ≤ 0) (hworst : flags.worstN ≤ 0)
    (hread : files.readInlines file = some inlines) :
    main E S files flags [file] =
      { inlinesRead := some file, benchmarksRead := none,
        exit := Exit.subset
          (activeRecords (select E flags.seed (toInt32 flags.threshold) inlines.length)
            inlines) } := by
  have h0 : ¬ flags.seed = 0 := by omega
  have hb : ¬ flags.bestN > 0 := by omega
  have hw : ¬ flags.worstN > 0 := by omega
  simp [main, h0, hb, hw, hread, hseed, subsetMode_eq]

/-- With a negative seed, one file argument and no best/worst count, `main`
passes the usage test, does not run subset generation and calls
`readBenchmarks` with the empty file name. -/
theorem main_negative_seed (E : Extern) (S : Solver) (files : Files) (flags : Flags)
    (file : String) (inlines : List inlineRecord)
    (hseed : flags.seed < 0) (hbest : flags.bestN ≤ 0) (hworst : flags.worstN ≤ 0)
    (hread : files.readInlines file = some inlines) :
    (main E S files flags [file]).benchmarksRead = some "" ∧
    ∀ out, (main E S files flags [file]).exit ≠ Exit.subset out := by
  have h0 : ¬ flags.seed = 0 := by omega
  have hp : ¬ flags.seed > 0 := by omega
  have hb : ¬ flags.bestN > 0 := by omega
  have hw : ¬ flags.worstN > 0 := by omega
  simp only [main, h0, hb, hw, hread, hp, false_and, if_false, or_self, List.length_singleton,
    ne_eq, not_true_eq_false, and_false, List.getElem?_cons_zero]
  cases files.readBenchmarks "" with
  | none => exact ⟨rfl, fun out h => Exit.noConfusion h⟩
  | some trials =>
    simp only
    cases regression E S inlines trials flags.bestN flags.worstN with
    | none => exact ⟨rfl, fun out h => Exit.noConfusion h⟩
    | some lines => exact ⟨rfl, fun out h => Exit.noConfusion h⟩

/-- C17 (the code at a failing input): `-seed -1` with the single file
`inl.csv` passes the usage test, but `main` then calls `readBenchmarks("")` and
panics; `-seed 1` with the same file runs subset generation without reading a
trial file. -/
theorem main_negative_seed_reads_trials :
    main refExtern succeedingSolver sampleFiles
        { bestN := 0, worstN := 0, seed := -1, threshold := 67 } ["inl.csv"] =
      { inlinesRead := some "inl.csv", benchmarksRead := some "", exit := Exit.panic } ∧
    main refExtern succeedingSolver sampleFiles
        { bestN := 0, worstN := 0, seed := 1, threshold := 67 } ["inl.csv"] =
      { inlinesRead := some "inl.csv", benchmarksRead := none,
        exit := Exit.subset
          [["x.go:1:2: ", "front_end", "INLINE_SITE", "pkg", "a", "1", "2", "lib", "g", "3"]] } := by
  decide

end SolveInlines
